import Mathlib

/-!
Verification of the HYBRIDJOIN near-real-time data-warehouse pipeline
(`src/hybridjoin.py`, `hybrid_join/doubly_linked_list.py`).

The development shallowly embeds the stateful Python code:

* Python dicts carrying tuple payloads become ordered association lists
  (`Dict`), with `dict.copy()` followed by `dict.update(...)` embedded as
  `pyUpdate`.
* The `DoublyLinkedList` FIFO of join keys becomes a Lean list of
  `(node id, key)` pairs; the node objects returned by `append` and passed
  to `remove` become fresh natural-number identifiers handed out by the
  stage state.
* `defaultdict(list)` (the hash index from join key to the list of
  `(stream_tuple, queue_node)` pairs) becomes an insertion-ordered
  association list from keys to buckets.
* One `HybridJoinConsumer` is a `Stage` record; the body of
  `HybridJoinConsumer.run` is split into `admitPhase` (lines 170-185),
  `flushKey` (the two identical flush blocks, lines 209-216 and 218-225),
  `matchPartition` (the matching loop, lines 227-250) and the loop body
  `runIteration` (lines 167-250).  The stage is generic in the stream-tuple
  type, the disk-record type and the enrichment function; throughput
  telemetry and wall-clock reporting are omitted.
* `StreamProducer.run` becomes `producerRun`; `_write_fact_to_batch`
  becomes `writeFactToBatch`.

Each output element of a stage is instrumented with the node identifier and
join key of the window entry that produced it, so that identity-sensitive
properties (no double match, per-key ordering) can be stated; the payload
component is exactly what the code places on the output queue.
-/

namespace HybridJoinDW

/-- Join keys.  Customer identifiers are ints and product identifiers are
strings in the source; both are embedded as integers. -/
abbrev Key := Int

/-! ### Module-level constants (lines 24-29) -/

/-- Window capacity `HS`. -/
def HS : Nat := 10000

/-- Partition size `VP` passed to the partition loaders. -/
def VP : Nat := 500

/-- Capacity of the producer-to-stage-1 channel. -/
def STREAM_BUFFER_SIZE : Nat := 5000

/-- Capacity of the stage-1-to-stage-2 channel. -/
def INTERMEDIATE_QUEUE_SIZE : Nat := 5000

/-- Batch size of the final-stage insert buffer. -/
def BATCH_INSERT_SIZE : Nat := 1000

/-- The advertised fixed memory budget in tuples. -/
def TOTAL_MEMORY_TUPLES : Nat :=
  (2 * HS) + (2 * VP) + STREAM_BUFFER_SIZE + INTERMEDIATE_QUEUE_SIZE + BATCH_INSERT_SIZE

/-! ### Python dicts as ordered association lists -/

/-- A Python dict holding tuple fields: an insertion-ordered association
list from field names to integer payloads. -/
abbrev Dict := List (String × Int)

/-- `d[f]` as a total lookup: the value at the first occurrence of field
`f`, if any. -/
def dictLookup (d : Dict) (f : String) : Option Int :=
  (d.find? (fun p => p.1 == f)).map (fun p => p.2)

/-- `base.copy()` followed by `.update(upd)`: fields of `base` keep their
position but take the value from `upd` when present; fields only in `upd`
are appended in order. -/
def pyUpdate (base upd : Dict) : Dict :=
  (base.map (fun p =>
      match dictLookup upd p.1 with
      | some v => (p.1, v)
      | none => p)) ++
    upd.filter (fun p => !((base.map Prod.fst).contains p.1))

/-! ### The doubly linked list of pending join keys

`doubly_linked_list.py` keeps a FIFO of keys and returns the freshly
allocated node from `append` so that `remove` can later splice out that
exact node in O(1).  The embedding is the list of `(node id, key)` pairs in
front-to-back order; node identity is a natural number. -/

/-- The FIFO of `(node id, join key)` pairs, head = front. -/
abbrev DLL := List (Nat × Key)

/-- `DoublyLinkedList.append(key)` with the fresh node id chosen by the
caller. -/
def dllAppend (q : DLL) (n : Nat) (k : Key) : DLL := q ++ [(n, k)]

/-- `DoublyLinkedList.remove(node)`: splice out the node with identifier
`n` (node ids are unique, so the first hit is the node). -/
def dllRemove (q : DLL) (n : Nat) : DLL := q.eraseP (fun p => p.1 == n)

/-- `DoublyLinkedList.peek_front()`. -/
def dllPeekFront (q : DLL) : Option Key := q.head?.map (fun p => p.2)

/-- `DoublyLinkedList.is_empty()`. -/
def dllIsEmpty (q : DLL) : Bool := q.length == 0

/-- Removal of the first occurrence of one specific `(node id, key)` pair
from a pair list (proof-side helper used to state the effect of a
splice). -/
def erasePair (l : List (Nat × Key)) (a : Nat × Key) : List (Nat × Key) :=
  l.eraseP (fun p => p == a)

/-! ### The hash index `defaultdict(list)` -/

/-- One `(stream_tuple, queue_node)` pair stored in a hash bucket. -/
structure WEntry (τ : Type) where
  tup : τ
  node : Nat
deriving Repr, DecidableEq

/-- A hash bucket: the list of entries for one key, in insertion order. -/
abbrev Bucket (τ : Type) := List (WEntry τ)

/-- The hash index: an insertion-ordered association list from join keys to
buckets, embedding `defaultdict(list)`. -/
abbrev HashTable (τ : Type) := List (Key × Bucket τ)

/-- `hash_table[k]` without the defaultdict insertion side effect (used
where the code guards with `k in hash_table`). -/
def htLookup {τ : Type} (ht : HashTable τ) (k : Key) : Option (Bucket τ) :=
  (ht.find? (fun p => p.1 == k)).map (fun p => p.2)

/-- `k in hash_table`. -/
def htMem {τ : Type} (ht : HashTable τ) (k : Key) : Bool :=
  (htLookup ht k).isSome

/-- `hash_table[k].append(e)`: append to the bucket of `k`, creating the
key (as `defaultdict` getitem does) when absent. -/
def htAppend {τ : Type} (ht : HashTable τ) (k : Key) (e : WEntry τ) : HashTable τ :=
  if htMem ht k then
    ht.map (fun p => if p.1 == k then (p.1, p.2 ++ [e]) else p)
  else
    ht ++ [(k, [e])]

/-- `hash_table[k].remove(e)`: delete the first entry equal to `e` from the
bucket of `k` (the bucket itself stays present, possibly empty). -/
def htRemoveEntry {τ : Type} [DecidableEq τ] (ht : HashTable τ) (k : Key) (e : WEntry τ) :
    HashTable τ :=
  ht.map (fun p => if p.1 == k then (p.1, p.2.eraseP (fun x => x == e)) else p)

/-- `del hash_table[k]`. -/
def htDelete {τ : Type} (ht : HashTable τ) (k : Key) : HashTable τ :=
  ht.filter (fun p => p.1 != k)

/-- All `(node id, key)` pairs recorded in the hash index, bucket by
bucket.  The window invariant states that this is a permutation of the
FIFO. -/
def htPairs {τ : Type} (ht : HashTable τ) : List (Nat × Key) :=
  ht.flatMap (fun p => p.2.map (fun e => (e.node, p.1)))

/-! ### The join stage state (`HybridJoinConsumer`) -/

/-- The mutable state of one `HybridJoinConsumer`: the hash index, the FIFO
of pending keys, the free-slot counter `w` (initialised to the window
capacity `HS`), the fresh-node counter, the progress counters, and the
output channel contents.  Each output element carries, besides the enriched
payload put on the output queue, the node id and join key of the window
entry that produced it (instrumentation for identity properties). -/
structure Stage (τ σ : Type) where
  hash_table : HashTable τ
  queue : DLL
  w : Nat
  next_node : Nat
  total_processed : Nat
  total_joined : Nat
  total_output : Nat
  output : List (Nat × Key × σ)
deriving Repr, DecidableEq

/-- The freshly initialised stage: empty index, empty FIFO, `w = HS`
(lines 137-151 of `hybridjoin.py`, with the capacity left as a
parameter). -/
def initStage (τ σ : Type) (cap : Nat) : Stage τ σ :=
  { hash_table := []
    queue := []
    w := cap
    next_node := 0
    total_processed := 0
    total_joined := 0
    total_output := 0
    output := [] }

section StageOps

variable {τ ρ σ : Type} [DecidableEq τ]

/-- Admission of one stream tuple (lines 175-180): compute the join key,
append a fresh node to the FIFO, record `(tuple, node)` in the bucket of
the key. -/
def admitOne (keyS : τ → Key) (s : Stage τ σ) (t : τ) : Stage τ σ :=
  let k := keyS t
  { s with
    queue := dllAppend s.queue s.next_node k
    hash_table := htAppend s.hash_table k ⟨t, s.next_node⟩
    next_node := s.next_node + 1
    total_processed := s.total_processed + 1 }

/-- The admission loop (lines 173-182): pull tuples while fewer than
`wBound` have been loaded this iteration and the input channel has data.
Returns the state, the unconsumed input and the number loaded. -/
def admitLoop (keyS : τ → Key) (wBound : Nat) :
    Stage τ σ → List τ → Nat → Stage τ σ × List τ × Nat
  | s, [], loaded => (s, [], loaded)
  | s, t :: rest, loaded =>
    if loaded < wBound then admitLoop keyS wBound (admitOne keyS s t) rest (loaded + 1)
    else (s, t :: rest, loaded)

/-- The admission phase (lines 172-185): only runs when `w > 0`; after the
loop, when at least one tuple was loaded, `w` is set to `0`, freezing
further admission until removals free slots again. -/
def admitPhase (keyS : τ → Key) (s : Stage τ σ) (input : List τ) : Stage τ σ × List τ :=
  if 0 < s.w then
    let r := admitLoop keyS s.w s input 0
    (if 0 < r.2.2 then { r.1 with w := 0 } else r.1, r.2.1)
  else (s, input)

/-- Removal of one window entry from bucket `k` (shared by the flush blocks
and the matching loop): `hash_table[k].remove(e)`, `queue.remove(node)`,
`w += 1`. -/
def removeEntry (k : Key) (s : Stage τ σ) (e : WEntry τ) : Stage τ σ :=
  { s with
    hash_table := htRemoveEntry s.hash_table k e
    queue := dllRemove s.queue e.node
    w := s.w + 1 }

/-- The flush of an unmatchable key (lines 209-216, identically 218-225):
when the key is present, iterate over a copy of its bucket and remove every
entry, incrementing `w` each time.  Nothing is forwarded. -/
def flushKey (k : Key) (s : Stage τ σ) : Stage τ σ :=
  if htMem s.hash_table k then
    ((htLookup s.hash_table k).getD []).foldl (removeEntry k) s
  else s

/-- One matched entry inside the matching loop (lines 233-247): remove the
entry, build the enriched tuple by merging, bump the joined counter and put
the enriched tuple on the output queue (non-final stage path). -/
def matchEntryStep (merge : τ → ρ → σ) (k : Key) (r : ρ) (s : Stage τ σ) (e : WEntry τ) :
    Stage τ σ :=
  let s1 := removeEntry k s e
  { s1 with
    total_joined := s1.total_joined + 1
    output := s1.output ++ [(e.node, k, merge e.tup r)]
    total_output := s1.total_output + 1 }

/-- Processing of one fetched disk record (lines 227-250): when its key has
a bucket, drain a copy of the bucket through `matchEntryStep`, then delete
the key when its bucket has become empty. -/
def matchOne (keyR : ρ → Key) (merge : τ → ρ → σ) (s : Stage τ σ) (r : ρ) : Stage τ σ :=
  let k := keyR r
  if htMem s.hash_table k then
    let s1 := ((htLookup s.hash_table k).getD []).foldl (matchEntryStep merge k r) s
    if ((htLookup s1.hash_table k).getD []).isEmpty then
      { s1 with hash_table := htDelete s1.hash_table k }
    else s1
  else s

/-- The matching loop over a fetched partition (line 227). -/
def matchPartition (keyR : ρ → Key) (merge : τ → ρ → σ) (s : Stage τ σ) (part : List ρ) :
    Stage τ σ :=
  part.foldl (matchOne keyR merge) s

/-- Result of one iteration of the consumer loop: either the stage breaks
out of the loop (line 190) or continues with a new state and the remaining
input. -/
inductive IterResult (τ σ : Type) where
  | terminated (s : Stage τ σ) (rest : List τ)
  | next (s : Stage τ σ) (rest : List τ)
deriving Repr, DecidableEq

/-- One iteration of `HybridJoinConsumer.run` (lines 167-250): admission
phase; termination test on empty window; probe of the partition loader for
the oldest key; flush on fetch failure or empty partition; otherwise the
matching loop.  The partition loader models
`partition_loader_func(connection, oldest_key, VP)` and may fail, as the
database fetch may. -/
def runIteration (keyS : τ → Key) (keyR : ρ → Key) (merge : τ → ρ → σ) (cap : Nat)
    (loader : Key → Except Unit (List ρ)) (upstreamFinished : Bool)
    (s : Stage τ σ) (input : List τ) : IterResult τ σ :=
  let a := admitPhase keyS s input
  let s1 := a.1
  let rest := a.2
  if dllIsEmpty s1.queue then
    if upstreamFinished && rest.isEmpty then .terminated s1 rest
    else .next s1 rest
  else
    match dllPeekFront s1.queue with
    | none => .next { s1 with w := cap - s1.queue.length } rest
    | some k =>
      match loader k with
      | .error _ => .next (flushKey k s1) rest
      | .ok part =>
        if part.isEmpty then .next (flushKey k s1) rest
        else .next (matchPartition keyR merge s1 part) rest

/-- One observable operation of a stage, as the spec groups them: an
admission phase with some available input, a flush of a key, or the
matching loop over a fetched partition. -/
inductive StageStep (keyS : τ → Key) (keyR : ρ → Key) (merge : τ → ρ → σ) :
    Stage τ σ → Stage τ σ → Prop where
  | load (s : Stage τ σ) (input : List τ) :
      StageStep keyS keyR merge s (admitPhase keyS s input).1
  | flush (s : Stage τ σ) (k : Key) :
      StageStep keyS keyR merge s (flushKey k s)
  | probe (s : Stage τ σ) (part : List ρ) :
      StageStep keyS keyR merge s (matchPartition keyR merge s part)

/-- States reachable from the initialised stage by any interleaving of
admissions, flushes and partition matches. -/
inductive Reachable (keyS : τ → Key) (keyR : ρ → Key) (merge : τ → ρ → σ) (cap : Nat) :
    Stage τ σ → Prop where
  | init : Reachable keyS keyR merge cap (initStage τ σ cap)
  | step {s s1 : Stage τ σ} : Reachable keyS keyR merge cap s →
      StageStep keyS keyR merge s s1 → Reachable keyS keyR merge cap s1

end StageOps

/-! ### The stream producer (`StreamProducer.run`, lines 55-114) -/

/-- The observable state touched by the producer: the stream buffer it
feeds, the streamed-records metric, and the `producer_finished` event. -/
structure ProducerState where
  stream_buffer : List Dict
  total_streamed : Nat
  producer_finished : Bool
deriving Repr, DecidableEq

/-- The producer state before `run` starts: empty buffer, zero metric,
event unset. -/
def initProducerState : ProducerState :=
  { stream_buffer := [], total_streamed := 0, producer_finished := false }

/-- The streaming loop (lines 78-105): put each parsed row into the stream
buffer in order, updating the streamed-records metric to the running
count. -/
def streamLoop (st : ProducerState) (rows : List Dict) : ProducerState :=
  rows.foldl
    (fun acc row =>
      { acc with
        stream_buffer := acc.stream_buffer ++ [row]
        total_streamed := acc.total_streamed + 1 })
    st

/-- `StreamProducer.run` (lines 55-114): reading and parsing the CSV may
fail (modelled by the `Except` input); on success every row is streamed; on
failure the exception is re-raised after the `except` block.  Either way
the `finally` block sets `producer_finished`.  Returns the final state and
the outcome the thread terminates with. -/
def producerRun (readResult : Except String (List Dict)) (st : ProducerState) :
    ProducerState × Except String Unit :=
  match readResult with
  | .error e => ({ st with producer_finished := true }, .error e)
  | .ok rows => ({ streamLoop st rows with producer_finished := true }, .ok ())

/-! ### The sink adapter (`HybridJoinConsumer._write_fact_to_batch`, lines 305-362) -/

/-- The in-memory dimension lookup tables loaded at start-up
(`load_dimension_lookups`): natural key to surrogate key, absent when the
dimension row is missing. -/
structure DimLookups where
  customer : Int → Option Int
  product : String → Option Int
  store : String → Option Int
  supplier : String → Option Int

/-- The fields of an enriched tuple that `_write_fact_to_batch` reads.
`store_id` and `supplier_id` use `.get(..., default)` in the source, hence
the `Option`; `date_key` is the `YYYYMMDD` integer derived from the date
and `weekday` its day-of-week index (numeric payloads are embedded as
integers). -/
structure EnrichedFact where
  order_id : Int
  customer_id : Int
  product_id : String
  store_id : Option String
  supplier_id : Option String
  date_key : Int
  weekday : Nat
  quantity : Int
  price : Int
deriving Repr, DecidableEq

/-- One row of the `fact_record` tuple built at lines 334-348. -/
structure FactRecord where
  order_id : Int
  order_line_number : Int
  customer_key : Int
  product_key : Int
  store_key : Int
  supplier_key : Int
  date_key : Int
  quantity : Int
  unit_price : Int
  total_purchase : Int
  discount_amount : Int
  weekend_flag : Int
  channel : String
deriving Repr, DecidableEq

/-- The final-stage batching state: the shared batch buffer, the loaded
counter and the drop counter. -/
structure SinkState where
  final_load_batch : List FactRecord
  total_loaded : Nat
  dropped_records : Nat
deriving Repr, DecidableEq

/-- Python truthiness of an optional surrogate key as used by
`all([customer_key, ...])`: `None` and `0` are falsy. -/
def pyTruthy (v : Option Int) : Bool :=
  match v with
  | none => false
  | some x => x != 0

/-- `_write_fact_to_batch` (lines 305-362): resolve the four dimension
lookups, drop the tuple (counting it) when any resolved key is falsy,
otherwise derive the remaining fields, append the fact record to the batch
and flush the batch once it reaches the batch-insert size.  The persistence
collaborator `insert_fact_sales_batch` is modelled as storing the whole
batch, returning its length. -/
def writeFactToBatch (L : DimLookups) (batchSize : Nat) (st : SinkState) (e : EnrichedFact) :
    SinkState :=
  let customer_key := L.customer e.customer_id
  let product_key := L.product e.product_id
  let store_key := L.store (e.store_id.getD "UNKNOWN")
  let supplier_key := L.supplier (e.supplier_id.getD "UNKNOWN")
  let date_key := e.date_key
  if !(pyTruthy customer_key && pyTruthy product_key && pyTruthy store_key &&
      pyTruthy supplier_key && (date_key != 0)) then
    { st with dropped_records := st.dropped_records + 1 }
  else
    let unit_price := e.price
    let total_purchase := e.quantity * unit_price
    let discount_amount : Int := 0
    let weekend_flag : Int := if 5 ≤ e.weekday then 1 else 0
    let fact : FactRecord :=
      { order_id := e.order_id
        order_line_number := 1
        customer_key := customer_key.getD 0
        product_key := product_key.getD 0
        store_key := store_key.getD 0
        supplier_key := supplier_key.getD 0
        date_key := date_key
        quantity := e.quantity
        unit_price := unit_price
        total_purchase := total_purchase
        discount_amount := discount_amount
        weekend_flag := weekend_flag
        channel := "In-Store" }
    let batch1 := st.final_load_batch ++ [fact]
    if batchSize ≤ batch1.length then
      { st with final_load_batch := [], total_loaded := st.total_loaded + batch1.length }
    else
      { st with final_load_batch := batch1 }

/-! ### The window well-formedness invariant

The spec states the Window invariants as: `|order| == sum of |index[k]| <=
capacity`, every entry of `order` appears in exactly one `index` bucket and
vice versa, and entries of one key are kept in admission order.  `WF`
renders these over the embedding (node ids play the role of entry
identity: ids are handed out in admission order, so id order is admission
order), together with the facts about the output channel needed for the
no-double-match and per-key ordering properties. -/

section InvariantDefs

variable {τ σ : Type}

/-- The capacity-independent part of the window invariant.  It holds at
every point, including mid-admission, while the size bound
`w + |order| ≤ capacity` below is suspended during the admission loop and
restored when the loop freezes `w`. -/
structure WFCore (s : Stage τ σ) : Prop where
  nodes_nodup : (s.queue.map Prod.fst).Nodup
  nodes_lt : ∀ p ∈ s.queue, p.1 < s.next_node
  keys_nodup : (s.hash_table.map Prod.fst).Nodup
  pairs_perm : List.Perm (htPairs s.hash_table) s.queue
  buckets_sorted : ∀ p ∈ s.hash_table, List.Sorted (· < ·) (p.2.map WEntry.node)
  out_nodup : (s.output.map (fun o => o.1)).Nodup
  out_lt : ∀ o ∈ s.output, o.1 < s.next_node
  out_window_disjoint : ∀ o ∈ s.output, ∀ p ∈ s.queue, o.1 ≠ p.1
  out_key_sorted : ∀ k : Key,
    List.Sorted (· < ·) ((s.output.filter (fun o => o.2.1 == k)).map (fun o => o.1))
  out_before_window : ∀ o ∈ s.output, ∀ p ∈ s.hash_table, ∀ e ∈ p.2,
    o.2.1 = p.1 → o.1 < e.node
  joined_eq : s.total_joined = s.output.length
  totout_eq : s.total_output = s.output.length

/-- Well-formedness of a reachable stage state. -/
structure WF (cap : Nat) (s : Stage τ σ) : Prop where
  nodes_nodup : (s.queue.map Prod.fst).Nodup
  nodes_lt : ∀ p ∈ s.queue, p.1 < s.next_node
  keys_nodup : (s.hash_table.map Prod.fst).Nodup
  pairs_perm : List.Perm (htPairs s.hash_table) s.queue
  buckets_sorted : ∀ p ∈ s.hash_table, List.Sorted (· < ·) (p.2.map WEntry.node)
  out_nodup : (s.output.map (fun o => o.1)).Nodup
  out_lt : ∀ o ∈ s.output, o.1 < s.next_node
  out_window_disjoint : ∀ o ∈ s.output, ∀ p ∈ s.queue, o.1 ≠ p.1
  out_key_sorted : ∀ k : Key,
    List.Sorted (· < ·) ((s.output.filter (fun o => o.2.1 == k)).map (fun o => o.1))
  out_before_window : ∀ o ∈ s.output, ∀ p ∈ s.hash_table, ∀ e ∈ p.2,
    o.2.1 = p.1 → o.1 < e.node
  size_bound : s.w + s.queue.length ≤ cap
  empty_w_pos : s.queue = [] → 1 ≤ s.w ∨ cap = 0
  joined_eq : s.total_joined = s.output.length
  totout_eq : s.total_output = s.output.length

/-- Effect of one `removeEntry` applied to the head of the bucket of
`k`. -/
structure RemoveHeadSpec (s s1 : Stage τ σ) (k : Key) (e : WEntry τ) (rest : Bucket τ) :
    Prop where
  lookup_self : htLookup s1.hash_table k = some rest
  lookup_ne : ∀ k1, k1 ≠ k → htLookup s1.hash_table k1 = htLookup s.hash_table k1
  keys_eq : s1.hash_table.map Prod.fst = s.hash_table.map Prod.fst
  pair_mem : (e.node, k) ∈ s.queue
  queue_eq : s1.queue = erasePair s.queue (e.node, k)
  pairs_eq : htPairs s1.hash_table = erasePair (htPairs s.hash_table) (e.node, k)

/-- Joint effect of draining the whole bucket `b` of key `k`: the bucket is
emptied, the FIFO loses exactly the key-`k` pairs, `w` grows by the number
of removed entries, and the output grows by `outDelta` (nothing for a
flush, the enriched tuples for a match). -/
structure DrainSpec (s s1 : Stage τ σ) (k : Key) (b : Bucket τ)
    (outDelta : List (Nat × Key × σ)) : Prop where
  lookup_self : htLookup s1.hash_table k = some []
  lookup_ne : ∀ k1, k1 ≠ k → htLookup s1.hash_table k1 = htLookup s.hash_table k1
  keys_eq : s1.hash_table.map Prod.fst = s.hash_table.map Prod.fst
  queue_perm : List.Perm s1.queue (s.queue.filter (fun p => p.2 != k))
  queue_len : s1.queue.length + b.length = s.queue.length
  w_eq : s1.w = s.w + b.length
  nodes_nodup1 : (s1.queue.map Prod.fst).Nodup
  pairs_perm1 : List.Perm (htPairs s1.hash_table) s1.queue
  next_eq : s1.next_node = s.next_node
  proc_eq : s1.total_processed = s.total_processed
  output_eq : s1.output = s.output ++ outDelta
  joined_eq1 : s1.total_joined = s.total_joined + outDelta.length
  totout_eq1 : s1.total_output = s.total_output + outDelta.length

end InvariantDefs

/-! ### Lemmas about pair-list erasure -/

section ErasePairLemmas

theorem erasePair_cons_self (a : Nat × Key) (l : List (Nat × Key)) :
    erasePair (a :: l) a = l :=
  List.eraseP_cons_of_pos (by simp)

theorem erasePair_cons_ne {hd a : Nat × Key} (l : List (Nat × Key)) (h : hd ≠ a) :
    erasePair (hd :: l) a = hd :: erasePair l a :=
  List.eraseP_cons_of_neg (by simpa using h)

theorem erasePair_append_right {a : Nat × Key} {l1 : List (Nat × Key)}
    (l2 : List (Nat × Key)) (h : a ∉ l1) :
    erasePair (l1 ++ l2) a = l1 ++ erasePair l2 a := by
  induction l1 with
  | nil => rfl
  | cons hd tl ih =>
    have hne : hd ≠ a := by
      rintro rfl
      exact h (by simp)
    rw [List.cons_append, erasePair_cons_ne _ hne, ih (fun hm => h (by simp [hm])),
      List.cons_append]

theorem erasePair_sublist (l : List (Nat × Key)) (a : Nat × Key) :
    List.Sublist (erasePair l a) l :=
  List.eraseP_sublist l

theorem perm_erasePair {l1 l2 : List (Nat × Key)} (a : Nat × Key) (h : List.Perm l1 l2) :
    List.Perm (erasePair l1 a) (erasePair l2 a) := by
  induction h with
  | nil => exact List.Perm.refl _
  | cons x hp ih =>
    by_cases hx : x = a
    · rw [hx, erasePair_cons_self, erasePair_cons_self]
      exact hp
    · rw [erasePair_cons_ne _ hx, erasePair_cons_ne _ hx]
      exact ih.cons x
  | swap x y l =>
    by_cases hy : y = a
    · by_cases hx : x = a
      · have hL : erasePair (y :: x :: l) a = x :: l := by
          rw [hy, erasePair_cons_self]
        have hR : erasePair (x :: y :: l) a = y :: l := by
          rw [hx, erasePair_cons_self]
        rw [hL, hR, hx, hy]
      · have hL : erasePair (y :: x :: l) a = x :: l := by
          rw [hy, erasePair_cons_self]
        have hR : erasePair (x :: y :: l) a = x :: l := by
          rw [erasePair_cons_ne _ hx, hy, erasePair_cons_self]
        rw [hL, hR]
    · by_cases hx : x = a
      · have hL : erasePair (y :: x :: l) a = y :: l := by
          rw [erasePair_cons_ne _ hy, hx, erasePair_cons_self]
        have hR : erasePair (x :: y :: l) a = y :: l := by
          rw [hx, erasePair_cons_self]
        rw [hL, hR]
      · have hL : erasePair (y :: x :: l) a = y :: x :: erasePair l a := by
          rw [erasePair_cons_ne _ hy, erasePair_cons_ne _ hx]
        have hR : erasePair (x :: y :: l) a = x :: y :: erasePair l a := by
          rw [erasePair_cons_ne _ hx, erasePair_cons_ne _ hy]
        rw [hL, hR]
        exact List.Perm.swap x y _
  | trans _ _ ih1 ih2 => exact ih1.trans ih2

theorem perm_cons_erasePair {a : Nat × Key} {l : List (Nat × Key)} (h : a ∈ l) :
    List.Perm l (a :: erasePair l a) := by
  induction l with
  | nil => cases h
  | cons hd tl ih =>
    by_cases hhd : hd = a
    · rw [hhd, erasePair_cons_self]
    · have htl : a ∈ tl := by
        rcases List.mem_cons.1 h with h1 | h1
        · exact absurd h1.symm hhd
        · exact h1
      rw [erasePair_cons_ne _ hhd]
      exact ((ih htl).cons hd).trans (List.Perm.swap a hd _)

theorem length_erasePair_of_mem {a : Nat × Key} {l : List (Nat × Key)} (h : a ∈ l) :
    l.length = (erasePair l a).length + 1 := by
  have := (perm_cons_erasePair h).length_eq
  simpa using this

end ErasePairLemmas

/-! ### Association-list lemmas for the hash index -/

section HtLemmas

variable {τ : Type}

theorem htLookup_decomp {ht : HashTable τ} {k : Key} {b : Bucket τ}
    (h : htLookup ht k = some b) :
    ∃ l1 l2, ht = l1 ++ (k, b) :: l2 ∧ ∀ p ∈ l1, p.1 ≠ k := by
  induction ht with
  | nil => simp [htLookup] at h
  | cons hd tl ih =>
    by_cases hk : hd.1 = k
    · refine ⟨[], tl, ?_, by simp⟩
      have : hd.2 = b := by
        simp [htLookup, List.find?_cons_of_pos, hk] at h
        exact h
      simp [← hk, ← this]
    · have h1 : htLookup tl k = some b := by
        simpa [htLookup, List.find?_cons_of_neg, hk] using h
      obtain ⟨l1, l2, rfl, hl1⟩ := ih h1
      exact ⟨hd :: l1, l2, rfl, by simpa [hk] using hl1⟩

theorem assoc_map_update_notmem {α : Type} {l : List (Key × α)} {k : Key}
    {f : Key × α → Key × α} (h : ∀ p ∈ l, p.1 ≠ k) :
    l.map (fun p => if p.1 == k then f p else p) = l := by
  induction l with
  | nil => rfl
  | cons hd tl ih =>
    have hhd : hd.1 ≠ k := h hd (by simp)
    have htl := ih (fun p hp => h p (by simp [hp]))
    simp only [List.map_cons]
    rw [if_neg (by simpa using hhd), htl]

theorem htPairs_append (l1 l2 : HashTable τ) :
    htPairs (l1 ++ l2) = htPairs l1 ++ htPairs l2 := by
  simp [htPairs]

theorem htPairs_cons (k : Key) (b : Bucket τ) (l : HashTable τ) :
    htPairs ((k, b) :: l) = b.map (fun e => (e.node, k)) ++ htPairs l := by
  simp [htPairs]

theorem snd_eq_key_of_mem_htPairs {ht : HashTable τ} {n : Nat} {k : Key}
    (h : (n, k) ∈ htPairs ht) : k ∈ ht.map Prod.fst := by
  simp only [htPairs, List.mem_flatMap, List.mem_map] at h
  obtain ⟨p, hp, e, _, he⟩ := h
  cases he
  exact List.mem_map_of_mem Prod.fst hp

theorem not_mem_htPairs_of_keys_ne {ht : HashTable τ} {n : Nat} {k : Key}
    (h : ∀ p ∈ ht, p.1 ≠ k) : (n, k) ∉ htPairs ht := by
  intro hmem
  have := snd_eq_key_of_mem_htPairs hmem
  simp only [List.mem_map] at this
  obtain ⟨p, hp, hpk⟩ := this
  exact h p hp hpk

theorem htLookup_append_of_notmem {τ : Type} {l1 : HashTable τ} (l2 : HashTable τ) {k : Key}
    (h : ∀ p ∈ l1, p.1 ≠ k) : htLookup (l1 ++ l2) k = htLookup l2 k := by
  induction l1 with
  | nil => rfl
  | cons hd tl ih =>
    have hhd : (hd.1 == k) = false := by simpa using h hd (by simp)
    show htLookup (hd :: (tl ++ l2)) k = htLookup l2 k
    unfold htLookup
    simp only [List.find?_cons, hhd]
    exact ih (fun p hp => h p (by simp [hp]))

theorem htLookup_middle_self {τ : Type} {l1 : HashTable τ} (l2 : HashTable τ) {k : Key}
    (b : Bucket τ) (h : ∀ p ∈ l1, p.1 ≠ k) :
    htLookup (l1 ++ (k, b) :: l2) k = some b := by
  rw [htLookup_append_of_notmem ((k, b) :: l2) h]
  simp [htLookup, List.find?_cons_of_pos]

theorem htLookup_middle_ne {τ : Type} {l1 l2 : HashTable τ} {k k1 : Key} (hne : k ≠ k1)
    (b b2 : Bucket τ) :
    htLookup (l1 ++ (k, b2) :: l2) k1 = htLookup (l1 ++ (k, b) :: l2) k1 := by
  induction l1 with
  | nil =>
    have hk : (k == k1) = false := by simpa using hne
    simp [htLookup, List.find?_cons_of_neg, hk]
  | cons hd tl ih =>
    show htLookup (hd :: (tl ++ (k, b2) :: l2)) k1 = htLookup (hd :: (tl ++ (k, b) :: l2)) k1
    by_cases hhd : hd.1 = k1
    · have hp : (hd.1 == k1) = true := by simpa using hhd
      unfold htLookup
      simp only [List.find?_cons, hp]
    · have hp : (hd.1 == k1) = false := by simpa using hhd
      unfold htLookup
      simp only [List.find?_cons, hp]
      exact ih

theorem htRemoveEntry_decomp {τ : Type} [DecidableEq τ] {l1 l2 : List (Key × Bucket τ)}
    {k : Key} {b : Bucket τ} (e : WEntry τ)
    (h1 : ∀ p ∈ l1, p.1 ≠ k) (h2 : ∀ p ∈ l2, p.1 ≠ k) :
    htRemoveEntry (l1 ++ (k, b) :: l2) k e =
      l1 ++ (k, b.eraseP (fun x => x == e)) :: l2 := by
  simp only [htRemoveEntry, List.map_append, List.map_cons]
  rw [assoc_map_update_notmem h1, assoc_map_update_notmem h2, if_pos (by simp)]

theorem htDelete_decomp {τ : Type} {l1 l2 : List (Key × Bucket τ)} {k : Key} {b : Bucket τ}
    (h1 : ∀ p ∈ l1, p.1 ≠ k) (h2 : ∀ p ∈ l2, p.1 ≠ k) :
    htDelete (l1 ++ (k, b) :: l2) k = l1 ++ l2 := by
  simp only [htDelete, List.filter_append, List.filter_cons]
  have : ((k : Key) != k) = false := by simp
  rw [this]
  have e1 : l1.filter (fun p => p.1 != k) = l1 :=
    List.filter_eq_self.2 (fun p hp => by simpa using h1 p hp)
  have e2 : l2.filter (fun p => p.1 != k) = l2 :=
    List.filter_eq_self.2 (fun p hp => by simpa using h2 p hp)
  simp [e1, e2]

theorem htAppend_decomp {τ : Type} {l1 l2 : List (Key × Bucket τ)} {k : Key} {b : Bucket τ}
    (e : WEntry τ) (h1 : ∀ p ∈ l1, p.1 ≠ k) (h2 : ∀ p ∈ l2, p.1 ≠ k) :
    htAppend (l1 ++ (k, b) :: l2) k e = l1 ++ (k, b ++ [e]) :: l2 := by
  have hmem : htMem (l1 ++ (k, b) :: l2) k = true := by
    simp [htMem, htLookup_middle_self l2 b h1]
  simp only [htAppend, hmem, if_pos]
  simp only [List.map_append, List.map_cons]
  rw [assoc_map_update_notmem h1, assoc_map_update_notmem h2, if_pos (by simp)]

theorem htAppend_notmem {τ : Type} {ht : HashTable τ} {k : Key} (e : WEntry τ)
    (h : htMem ht k = false) : htAppend ht k e = ht ++ [(k, [e])] := by
  simp [htAppend, h]

theorem mem_of_htLookup {τ : Type} {ht : HashTable τ} {k : Key} {b : Bucket τ}
    (h : htLookup ht k = some b) : (k, b) ∈ ht := by
  obtain ⟨l1, l2, rfl, _⟩ := htLookup_decomp h
  simp

theorem htLookup_of_mem_nodup {τ : Type} {ht : HashTable τ} {p : Key × Bucket τ}
    (hkeys : (ht.map Prod.fst).Nodup) (hp : p ∈ ht) : htLookup ht p.1 = some p.2 := by
  induction ht with
  | nil => cases hp
  | cons hd tl ih =>
    rcases List.mem_cons.1 hp with h | h
    · rw [h]
      simp [htLookup, List.find?_cons]
    · have hne : (hd.1 == p.1) = false := by
        have h1 : hd.1 ∉ tl.map Prod.fst := (List.nodup_cons.1 (by simpa using hkeys)).1
        have h2 : p.1 ∈ tl.map Prod.fst := List.mem_map_of_mem Prod.fst h
        by_cases he : hd.1 = p.1
        · rw [he] at h1
          exact absurd h2 h1
        · simpa using he
      show htLookup (hd :: tl) p.1 = some p.2
      unfold htLookup
      simp only [List.find?_cons, hne]
      exact ih (List.nodup_cons.1 (by simpa using hkeys)).2 h

theorem htLookup_htDelete_self {τ : Type} (ht : HashTable τ) (k : Key) :
    htLookup (htDelete ht k) k = none := by
  induction ht with
  | nil => rfl
  | cons hd tl ih =>
    by_cases hhd : hd.1 = k
    · have : (hd.1 != k) = false := by simpa using hhd
      simpa [htDelete, List.filter_cons, this] using ih
    · have h1 : (hd.1 != k) = true := by simpa using hhd
      have h2 : (hd.1 == k) = false := by simpa using hhd
      simp only [htDelete, List.filter_cons, h1, if_pos]
      show htLookup (hd :: tl.filter (fun p => p.1 != k)) k = none
      unfold htLookup
      simp only [List.find?_cons, h2]
      exact ih

theorem htLookup_htDelete_ne {τ : Type} {ht : HashTable τ} {k k1 : Key} (hne : k1 ≠ k) :
    htLookup (htDelete ht k) k1 = htLookup ht k1 := by
  induction ht with
  | nil => rfl
  | cons hd tl ih =>
    show htLookup ((hd :: tl).filter (fun p => p.1 != k)) k1 = htLookup (hd :: tl) k1
    rw [List.filter_cons]
    by_cases hhd : hd.1 = k
    · have h1 : (hd.1 != k) = false := by simpa using hhd
      have h2 : (hd.1 == k1) = false := by
        rw [hhd]
        by_cases he : k = k1
        · exact absurd he.symm hne
        · simpa using he
      rw [h1]
      simp only [Bool.false_eq_true, if_false]
      show htLookup (htDelete tl k) k1 = htLookup (hd :: tl) k1
      rw [ih]
      show htLookup tl k1 = htLookup (hd :: tl) k1
      unfold htLookup
      simp only [List.find?_cons, h2]
    · have h1 : (hd.1 != k) = true := by simpa using hhd
      rw [h1]
      simp only [if_true]
      show htLookup (hd :: htDelete tl k) k1 = htLookup (hd :: tl) k1
      unfold htLookup
      simp only [List.find?_cons]
      by_cases h2 : (hd.1 == k1) = true
      · simp only [h2]
      · have h2f : (hd.1 == k1) = false := by
          cases hb : (hd.1 == k1) with
          | false => rfl
          | true => exact absurd hb h2
        simp only [h2f]
        exact ih

theorem keys_notmem_right {τ : Type} {l1 l2 : HashTable τ} {k : Key} {b : Bucket τ}
    (hkeys : ((l1 ++ (k, b) :: l2).map Prod.fst).Nodup) : ∀ p ∈ l2, p.1 ≠ k := by
  intro p hp hpk
  have h1 : k ∉ (l2.map Prod.fst) := by
    have := hkeys
    simp only [List.map_append, List.map_cons, List.nodup_append] at this
    exact (List.nodup_cons.1 this.2.1).1
  exact h1 (hpk ▸ List.mem_map_of_mem Prod.fst hp)

theorem htLookup_decomp_nodup {τ : Type} {ht : HashTable τ} {k : Key} {b : Bucket τ}
    (hkeys : (ht.map Prod.fst).Nodup) (hb : htLookup ht k = some b) :
    ∃ l1 l2, ht = l1 ++ (k, b) :: l2 ∧ (∀ p ∈ l1, p.1 ≠ k) ∧ (∀ p ∈ l2, p.1 ≠ k) := by
  obtain ⟨l1, l2, rfl, hl1⟩ := htLookup_decomp hb
  exact ⟨l1, l2, rfl, hl1, keys_notmem_right hkeys⟩

theorem not_pair_mem_htPairs_of_bucket_empty {τ : Type} {ht : HashTable τ} {k : Key} {n : Nat}
    (hkeys : (ht.map Prod.fst).Nodup) (hb : htLookup ht k = some []) :
    (n, k) ∉ htPairs ht := by
  obtain ⟨l1, l2, rfl, hl1, hl2⟩ := htLookup_decomp_nodup hkeys hb
  intro hmem
  rw [htPairs_append, htPairs_cons] at hmem
  simp only [List.map_nil, List.nil_append, List.mem_append] at hmem
  rcases hmem with h | h
  · exact not_mem_htPairs_of_keys_ne hl1 h
  · exact not_mem_htPairs_of_keys_ne hl2 h

theorem not_pair_mem_htPairs_of_bucket_none {τ : Type} {ht : HashTable τ} {k : Key} {n : Nat}
    (hb : htLookup ht k = none) : (n, k) ∉ htPairs ht := by
  intro hmem
  have hk := snd_eq_key_of_mem_htPairs hmem
  simp only [List.mem_map] at hk
  obtain ⟨p, hp, rfl⟩ := hk
  have hsome : (ht.find? (fun q => q.1 == p.1)).isSome := List.find?_isSome.2 ⟨p, hp, by simp⟩
  cases hfind : ht.find? (fun q => q.1 == p.1) with
  | none => rw [hfind] at hsome; cases hsome
  | some x => rw [htLookup, hfind] at hb; cases hb

theorem htPairs_htDelete_of_empty {τ : Type} {ht : HashTable τ} {k : Key}
    (hkeys : (ht.map Prod.fst).Nodup) (hb : htLookup ht k = some []) :
    htPairs (htDelete ht k) = htPairs ht := by
  obtain ⟨l1, l2, rfl, hl1, hl2⟩ := htLookup_decomp_nodup hkeys hb
  rw [htDelete_decomp hl1 hl2, htPairs_append, htPairs_append, htPairs_cons]
  simp

theorem notmem_keys_of_htMem_false {τ : Type} {ht : HashTable τ} {k : Key}
    (h : htMem ht k = false) : k ∉ ht.map Prod.fst := by
  intro hmem
  simp only [List.mem_map] at hmem
  obtain ⟨p, hp, rfl⟩ := hmem
  have hfind : (ht.find? (fun q => q.1 == p.1)).isSome :=
    List.find?_isSome.2 ⟨p, hp, by simp⟩
  rw [htMem, htLookup] at h
  cases hf : ht.find? (fun q => q.1 == p.1) with
  | none => rw [hf] at hfind; cases hfind
  | some x => rw [hf] at h; cases h

theorem htAppend_keys {τ : Type} (ht : HashTable τ) (k : Key) (e : WEntry τ) :
    (htAppend ht k e).map Prod.fst =
      if htMem ht k then ht.map Prod.fst else ht.map Prod.fst ++ [k] := by
  cases hmem : htMem ht k with
  | true =>
    simp only [htAppend, hmem, if_true, List.map_map]
    refine List.map_congr_left (fun p _ => ?_)
    by_cases hp : p.1 = k <;> simp [hp]
  | false =>
    simp [htAppend, hmem]

theorem perm_insert_middle {α : Type} (A B C : List α) (x : α) :
    List.Perm (A ++ (B ++ x :: C)) ((A ++ (B ++ C)) ++ [x]) := by
  have h1 : A ++ (B ++ x :: C) = (A ++ B) ++ x :: C := by simp [List.append_assoc]
  have h2 : (A ++ (B ++ C)) ++ [x] = ((A ++ B) ++ C) ++ [x] := by simp [List.append_assoc]
  rw [h1, h2]
  exact List.perm_middle.trans (List.perm_append_singleton _ _).symm

theorem htPairs_htAppend {τ : Type} {ht : HashTable τ} {k : Key} (e : WEntry τ)
    (hkeys : (ht.map Prod.fst).Nodup) :
    List.Perm (htPairs (htAppend ht k e)) (htPairs ht ++ [(e.node, k)]) := by
  cases hmem : htMem ht k with
  | false =>
    rw [htAppend_notmem e hmem, htPairs_append]
    simp [htPairs]
  | true =>
    obtain ⟨b, hb⟩ : ∃ b, htLookup ht k = some b := by
      cases hl : htLookup ht k with
      | none => rw [htMem, hl] at hmem; cases hmem
      | some b => exact ⟨b, rfl⟩
    obtain ⟨l1, l2, rfl, hl1, hl2⟩ := htLookup_decomp_nodup hkeys hb
    rw [htAppend_decomp e hl1 hl2, htPairs_append, htPairs_cons, htPairs_append,
      htPairs_cons]
    simp only [List.map_append, List.map_cons, List.map_nil]
    have hsh : (b.map (fun x => (x.node, k)) ++ [(e.node, k)]) ++ htPairs l2
        = b.map (fun x => (x.node, k)) ++ ((e.node, k) :: htPairs l2) := by
      simp [List.append_assoc]
    rw [hsh]
    exact perm_insert_middle _ _ _ _

theorem fst_inj_of_nodup {α β : Type} {l : List (α × β)} {p1 p2 : α × β}
    (hnodup : (l.map Prod.fst).Nodup) (h1 : p1 ∈ l) (h2 : p2 ∈ l) (heq : p1.1 = p2.1) :
    p1 = p2 := by
  induction l with
  | nil => cases h1
  | cons hd tl ih =>
    have hhd_nin : hd.1 ∉ tl.map Prod.fst := (List.nodup_cons.1 (by simpa using hnodup)).1
    have hnd : (tl.map Prod.fst).Nodup := (List.nodup_cons.1 (by simpa using hnodup)).2
    rcases List.mem_cons.1 h1 with ha | ha <;> rcases List.mem_cons.1 h2 with hb | hb
    · rw [ha, hb]
    · exfalso
      apply hhd_nin
      rw [← ha, heq]
      exact List.mem_map_of_mem Prod.fst hb
    · exfalso
      apply hhd_nin
      rw [← hb, ← heq]
      exact List.mem_map_of_mem Prod.fst ha
    · exact ih hnd ha hb

theorem pair_mem_htPairs {τ : Type} {ht : HashTable τ} {k : Key} {b : Bucket τ}
    {e : WEntry τ} (hmem : (k, b) ∈ ht) (he : e ∈ b) : (e.node, k) ∈ htPairs ht := by
  simp only [htPairs, List.mem_flatMap]
  exact ⟨(k, b), hmem, List.mem_map_of_mem _ he⟩

theorem dllRemove_eq_erasePair {q : DLL} {n : Nat} {k : Key}
    (hnodup : (q.map Prod.fst).Nodup) (hmem : (n, k) ∈ q) :
    dllRemove q n = erasePair q (n, k) := by
  induction q with
  | nil => cases hmem
  | cons hd tl ih =>
    have hnd : (tl.map Prod.fst).Nodup := (List.nodup_cons.1 (by simpa using hnodup)).2
    have hhd_nin : hd.1 ∉ tl.map Prod.fst := (List.nodup_cons.1 (by simpa using hnodup)).1
    by_cases h1 : hd.1 = n
    · have hd_eq : hd = (n, k) := by
        rcases List.mem_cons.1 hmem with h | h
        · exact h.symm
        · exact absurd (h1 ▸ List.mem_map_of_mem Prod.fst h) hhd_nin
      rw [hd_eq]
      show ((n, k) :: tl).eraseP (fun p => p.1 == n) = erasePair ((n, k) :: tl) (n, k)
      rw [List.eraseP_cons_of_pos (by simp), erasePair_cons_self]
    · have hd_ne : hd ≠ (n, k) := fun he => h1 (by rw [he])
      have hmem_tl : (n, k) ∈ tl := by
        rcases List.mem_cons.1 hmem with h | h
        · exact absurd h.symm hd_ne
        · exact h
      show (hd :: tl).eraseP (fun p => p.1 == n) = erasePair (hd :: tl) (n, k)
      rw [List.eraseP_cons_of_neg (by simpa using h1), erasePair_cons_ne _ hd_ne]
      exact congrArg (hd :: ·) (ih hnd hmem_tl)

end HtLemmas

/-! ### Drain lemmas: the flush and match loops empty one bucket -/

section DrainLemmas

variable {τ ρ σ : Type} [DecidableEq τ]

theorem removeEntry_head {s : Stage τ σ} {k : Key} {e : WEntry τ} {rest : Bucket τ}
    (hkeys : (s.hash_table.map Prod.fst).Nodup)
    (hnodes : (s.queue.map Prod.fst).Nodup)
    (hperm : List.Perm (htPairs s.hash_table) s.queue)
    (hb : htLookup s.hash_table k = some (e :: rest)) :
    RemoveHeadSpec s (removeEntry k s e) k e rest := by
  obtain ⟨l1, l2, hht, hl1, hl2⟩ := htLookup_decomp_nodup hkeys hb
  have herase : (e :: rest).eraseP (fun x => x == e) = rest :=
    List.eraseP_cons_of_pos (by simp)
  have hre : (removeEntry k s e).hash_table = l1 ++ (k, rest) :: l2 := by
    show htRemoveEntry s.hash_table k e = _
    rw [hht, htRemoveEntry_decomp e hl1 hl2, herase]
  have hpair_ht : (e.node, k) ∈ htPairs s.hash_table := by
    rw [hht, htPairs_append, htPairs_cons]
    simp
  have hpair_mem : (e.node, k) ∈ s.queue := hperm.mem_iff.1 hpair_ht
  refine ⟨?_, ?_, ?_, hpair_mem, ?_, ?_⟩
  · rw [hre]
    exact htLookup_middle_self l2 rest hl1
  · intro k1 hk1
    rw [hre, hht]
    exact htLookup_middle_ne (fun he => hk1 he.symm) (e :: rest) rest
  · rw [hre, hht]
    simp
  · exact dllRemove_eq_erasePair hnodes hpair_mem
  · rw [hre, hht, htPairs_append, htPairs_cons, htPairs_append, htPairs_cons]
    rw [erasePair_append_right _ (not_mem_htPairs_of_keys_ne hl1)]
    simp only [List.map_cons, List.cons_append]
    rw [erasePair_cons_self]

theorem drain_flush {k : Key} (b : Bucket τ) :
    ∀ (s : Stage τ σ),
    (s.hash_table.map Prod.fst).Nodup →
    (s.queue.map Prod.fst).Nodup →
    List.Perm (htPairs s.hash_table) s.queue →
    htLookup s.hash_table k = some b →
    DrainSpec s (b.foldl (removeEntry k) s) k b ([] : List (Nat × Key × σ)) := by
  induction b with
  | nil =>
    intro s hkeys hnodes hperm hb
    simp only [List.foldl_nil]
    have hfilter : s.queue.filter (fun p => p.2 != k) = s.queue := by
      refine List.filter_eq_self.2 (fun p hp => ?_)
      have hne : p.2 ≠ k := by
        intro hpk
        have hmem : (p.1, k) ∈ s.queue := by
          have hp2 : p = (p.1, k) := by
            cases p
            simpa using hpk
          rw [← hp2]
          exact hp
        exact not_pair_mem_htPairs_of_bucket_empty hkeys hb (hperm.mem_iff.2 hmem)
      simpa using hne
    exact ⟨hb, fun _ _ => rfl, rfl, by rw [hfilter], by simp, by simp, hnodes, hperm,
      rfl, rfl, by simp, by simp, by simp⟩
  | cons e rest ih =>
    intro s hkeys hnodes hperm hb
    simp only [List.foldl_cons]
    have spec := removeEntry_head (σ := σ) hkeys hnodes hperm hb
    set s1 := removeEntry k s e with hs1
    have hkeys1 : (s1.hash_table.map Prod.fst).Nodup := by
      rw [spec.keys_eq]
      exact hkeys
    have hnodes1 : (s1.queue.map Prod.fst).Nodup := by
      rw [spec.queue_eq]
      exact hnodes.sublist ((erasePair_sublist _ _).map Prod.fst)
    have hperm1 : List.Perm (htPairs s1.hash_table) s1.queue := by
      rw [spec.pairs_eq, spec.queue_eq]
      exact perm_erasePair (e.node, k) hperm
    have hIH := ih s1 hkeys1 hnodes1 hperm1 spec.lookup_self
    have hlen1 : s.queue.length = s1.queue.length + 1 := by
      rw [spec.queue_eq]
      exact length_erasePair_of_mem spec.pair_mem
    have hfq : List.Perm (s1.queue.filter (fun p => p.2 != k))
        (s.queue.filter (fun p => p.2 != k)) := by
      have h1 := (perm_cons_erasePair spec.pair_mem).filter (fun p => p.2 != k)
      have h2 : ((e.node, k) :: erasePair s.queue (e.node, k)).filter (fun p => p.2 != k)
          = (erasePair s.queue (e.node, k)).filter (fun p => p.2 != k) := by
        simp [List.filter_cons]
      rw [h2] at h1
      rw [spec.queue_eq]
      exact h1.symm
    refine ⟨hIH.lookup_self, ?_, ?_, ?_, ?_, ?_, hIH.nodes_nodup1, hIH.pairs_perm1,
      hIH.next_eq, hIH.proc_eq, ?_, ?_, ?_⟩
    · intro k1 hk1
      rw [hIH.lookup_ne k1 hk1]
      exact spec.lookup_ne k1 hk1
    · rw [hIH.keys_eq, spec.keys_eq]
    · exact hIH.queue_perm.trans hfq
    · have hq := hIH.queue_len
      simp only [List.length_cons]
      omega
    · have hw1 : s1.w = s.w + 1 := rfl
      have hw2 := hIH.w_eq
      simp only [List.length_cons]
      omega
    · rw [hIH.output_eq]
      rfl
    · rw [hIH.joined_eq1]
      rfl
    · rw [hIH.totout_eq1]
      rfl

theorem drain_match {k : Key} (r : ρ) (merge : τ → ρ → σ) (b : Bucket τ) :
    ∀ (s : Stage τ σ),
    (s.hash_table.map Prod.fst).Nodup →
    (s.queue.map Prod.fst).Nodup →
    List.Perm (htPairs s.hash_table) s.queue →
    htLookup s.hash_table k = some b →
    DrainSpec s (b.foldl (matchEntryStep merge k r) s) k b
      (b.map (fun e => (e.node, k, merge e.tup r))) := by
  induction b with
  | nil =>
    intro s hkeys hnodes hperm hb
    simp only [List.foldl_nil, List.map_nil]
    have hfilter : s.queue.filter (fun p => p.2 != k) = s.queue := by
      refine List.filter_eq_self.2 (fun p hp => ?_)
      have hne : p.2 ≠ k := by
        intro hpk
        have hmem : (p.1, k) ∈ s.queue := by
          have hp2 : p = (p.1, k) := by
            cases p
            simpa using hpk
          rw [← hp2]
          exact hp
        exact not_pair_mem_htPairs_of_bucket_empty hkeys hb (hperm.mem_iff.2 hmem)
      simpa using hne
    exact ⟨hb, fun _ _ => rfl, rfl, by rw [hfilter], by simp, by simp, hnodes, hperm,
      rfl, rfl, by simp, by simp, by simp⟩
  | cons e rest ih =>
    intro s hkeys hnodes hperm hb
    simp only [List.foldl_cons, List.map_cons]
    have spec := removeEntry_head (σ := σ) hkeys hnodes hperm hb
    set s1 := matchEntryStep merge k r s e with hs1
    have hkeys1 : (s1.hash_table.map Prod.fst).Nodup := by
      show ((removeEntry k s e).hash_table.map Prod.fst).Nodup
      rw [spec.keys_eq]
      exact hkeys
    have hnodes1 : (s1.queue.map Prod.fst).Nodup := by
      show ((removeEntry k s e).queue.map Prod.fst).Nodup
      rw [spec.queue_eq]
      exact hnodes.sublist ((erasePair_sublist _ _).map Prod.fst)
    have hperm1 : List.Perm (htPairs s1.hash_table) s1.queue := by
      show List.Perm (htPairs (removeEntry k s e).hash_table) (removeEntry k s e).queue
      rw [spec.pairs_eq, spec.queue_eq]
      exact perm_erasePair (e.node, k) hperm
    have hb1 : htLookup s1.hash_table k = some rest := spec.lookup_self
    have hIH := ih s1 hkeys1 hnodes1 hperm1 hb1
    have hq1 : s1.queue = erasePair s.queue (e.node, k) := spec.queue_eq
    have hlen1 : s.queue.length = s1.queue.length + 1 := by
      rw [hq1]
      exact length_erasePair_of_mem spec.pair_mem
    have hfq : List.Perm (s1.queue.filter (fun p => p.2 != k))
        (s.queue.filter (fun p => p.2 != k)) := by
      have h1 := (perm_cons_erasePair spec.pair_mem).filter (fun p => p.2 != k)
      have h2 : ((e.node, k) :: erasePair s.queue (e.node, k)).filter (fun p => p.2 != k)
          = (erasePair s.queue (e.node, k)).filter (fun p => p.2 != k) := by
        simp [List.filter_cons]
      rw [h2] at h1
      rw [hq1]
      exact h1.symm
    have ho1 : s1.output = s.output ++ [(e.node, k, merge e.tup r)] := rfl
    have hj1 : s1.total_joined = s.total_joined + 1 := rfl
    have ht1 : s1.total_output = s.total_output + 1 := rfl
    have hw1 : s1.w = s.w + 1 := rfl
    have hk1 : s1.hash_table.map Prod.fst = s.hash_table.map Prod.fst := spec.keys_eq
    refine ⟨hIH.lookup_self, ?_, ?_, ?_, ?_, ?_, hIH.nodes_nodup1, hIH.pairs_perm1,
      hIH.next_eq, hIH.proc_eq, ?_, ?_, ?_⟩
    · intro k1 hk1
      rw [hIH.lookup_ne k1 hk1]
      exact spec.lookup_ne k1 hk1
    · rw [hIH.keys_eq, hk1]
    · exact hIH.queue_perm.trans hfq
    · have hq := hIH.queue_len
      simp only [List.length_cons]
      omega
    · have hw2 := hIH.w_eq
      simp only [List.length_cons]
      omega
    · rw [hIH.output_eq, ho1]
      simp [List.append_assoc]
    · rw [hIH.joined_eq1, hj1]
      simp only [List.length_cons, List.length_map]
      omega
    · rw [hIH.totout_eq1, ht1]
      simp only [List.length_cons, List.length_map]
      omega

theorem flushKey_eq_foldl {s : Stage τ σ} {k : Key} {b : Bucket τ}
    (hb : htLookup s.hash_table k = some b) :
    flushKey k s = b.foldl (removeEntry k) s := by
  have hmem : htMem s.hash_table k = true := by simp [htMem, hb]
  unfold flushKey
  rw [hmem, if_pos rfl, hb]
  rfl

theorem flushKey_notmem {s : Stage τ σ} {k : Key} (h : htMem s.hash_table k = false) :
    flushKey k s = s := by
  unfold flushKey
  rw [h]
  simp

/-- The flush of a key, on a fetch failure or empty partition, drains the
bucket of the key: `DrainSpec` with no output. -/
theorem flushKey_spec {s : Stage τ σ} {k : Key} {b : Bucket τ}
    (hkeys : (s.hash_table.map Prod.fst).Nodup)
    (hnodes : (s.queue.map Prod.fst).Nodup)
    (hperm : List.Perm (htPairs s.hash_table) s.queue)
    (hb : htLookup s.hash_table k = some b) :
    DrainSpec s (flushKey k s) k b ([] : List (Nat × Key × σ)) := by
  rw [flushKey_eq_foldl hb]
  exact drain_flush b s hkeys hnodes hperm hb

end DrainLemmas

/-! ### Preservation of the well-formedness invariant -/

section WFPreservation

variable {τ ρ σ : Type} [DecidableEq τ]

theorem wf_flushKey {cap : Nat} {k : Key} {s : Stage τ σ} (h : WF cap s) :
    WF cap (flushKey k s) := by
  cases hmem : htMem s.hash_table k with
  | false => rw [flushKey_notmem hmem]; exact h
  | true =>
    obtain ⟨b, hb⟩ : ∃ b, htLookup s.hash_table k = some b := by
      cases hl : htLookup s.hash_table k with
      | none => rw [htMem, hl] at hmem; cases hmem
      | some b => exact ⟨b, rfl⟩
    have D := flushKey_spec (σ := σ) h.keys_nodup h.nodes_nodup h.pairs_perm hb
    set s1 := flushKey k s
    have hkeys1 : (s1.hash_table.map Prod.fst).Nodup := by
      rw [D.keys_eq]
      exact h.keys_nodup
    have houtput : s1.output = s.output := by
      rw [D.output_eq, List.append_nil]
    have hqsub : ∀ p ∈ s1.queue, p ∈ s.queue := by
      intro p hp
      exact List.mem_of_mem_filter (D.queue_perm.mem_iff.1 hp)
    have hbucket : ∀ p ∈ s1.hash_table, p.1 ≠ k → (p.1, p.2) ∈ s.hash_table := by
      intro p hp hpk
      have hl := htLookup_of_mem_nodup hkeys1 hp
      rw [D.lookup_ne p.1 hpk] at hl
      exact mem_of_htLookup hl
    have hbucketk : ∀ p ∈ s1.hash_table, p.1 = k → p.2 = [] := by
      intro p hp hpk
      have hl := htLookup_of_mem_nodup hkeys1 hp
      rw [hpk, D.lookup_self] at hl
      exact (Option.some.inj hl).symm
    refine ⟨D.nodes_nodup1, ?_, hkeys1, D.pairs_perm1, ?_, ?_, ?_, ?_, ?_, ?_, ?_, ?_,
      ?_, ?_⟩
    · intro p hp
      rw [D.next_eq]
      exact h.nodes_lt p (hqsub p hp)
    · intro p hp
      by_cases hpk : p.1 = k
      · rw [hbucketk p hp hpk]
        simp
      · exact h.buckets_sorted (p.1, p.2) (hbucket p hp hpk)
    · rw [houtput]
      exact h.out_nodup
    · intro o ho
      rw [houtput] at ho
      rw [D.next_eq]
      exact h.out_lt o ho
    · intro o ho p hp
      rw [houtput] at ho
      exact h.out_window_disjoint o ho p (hqsub p hp)
    · intro k1
      rw [houtput]
      exact h.out_key_sorted k1
    · intro o ho p hp e he hok
      rw [houtput] at ho
      by_cases hpk : p.1 = k
      · rw [hbucketk p hp hpk] at he
        cases he
      · exact h.out_before_window o ho (p.1, p.2) (hbucket p hp hpk) e he hok
    · have h1 := D.w_eq
      have h2 := D.queue_len
      have h3 := h.size_bound
      omega
    · intro hq
      have hq0 : s1.queue.length = 0 := by rw [hq]; rfl
      cases b with
      | nil =>
        have hsq : s.queue = [] := by
          have hql := D.queue_len
          simp only [List.length_nil] at hql
          have hlen : s.queue.length = 0 := by omega
          exact List.length_eq_zero.1 hlen
        rcases h.empty_w_pos hsq with h1 | h1
        · left
          have := D.w_eq
          omega
        · right
          exact h1
      | cons e rest =>
        left
        have := D.w_eq
        simp only [List.length_cons] at this
        omega
    · have h1 := D.joined_eq1
      have h2 : s1.output.length = s.output.length := by rw [houtput]
      have h3 := h.joined_eq
      simp only [List.length_nil] at h1
      omega
    · have h1 := D.totout_eq1
      have h2 : s1.output.length = s.output.length := by rw [houtput]
      have h3 := h.totout_eq
      simp only [List.length_nil] at h1
      omega

theorem matchOne_notmem {s : Stage τ σ} {r : ρ} (keyR : ρ → Key) (merge : τ → ρ → σ)
    (h : htMem s.hash_table (keyR r) = false) : matchOne keyR merge s r = s := by
  simp [matchOne, h]

/-- Processing one disk record whose key has a bucket: the state is the
bucket drain followed by the deletion of the now-empty key. -/
theorem matchOne_eq {s : Stage τ σ} {r : ρ} {b : Bucket τ} (keyR : ρ → Key)
    (merge : τ → ρ → σ)
    (hkeys : (s.hash_table.map Prod.fst).Nodup)
    (hnodes : (s.queue.map Prod.fst).Nodup)
    (hperm : List.Perm (htPairs s.hash_table) s.queue)
    (hb : htLookup s.hash_table (keyR r) = some b) :
    matchOne keyR merge s r =
      { (b.foldl (matchEntryStep merge (keyR r) r) s) with
        hash_table :=
          htDelete (b.foldl (matchEntryStep merge (keyR r) r) s).hash_table (keyR r) } := by
  have hmem : htMem s.hash_table (keyR r) = true := by simp [htMem, hb]
  have D := drain_match (k := keyR r) r merge b s hkeys hnodes hperm hb
  simp only [matchOne, hmem, if_true, hb, Option.getD_some, D.lookup_self,
    List.isEmpty_nil]

theorem wf_matchOne {cap : Nat} {s : Stage τ σ} {r : ρ} (keyR : ρ → Key)
    (merge : τ → ρ → σ) (h : WF cap s) : WF cap (matchOne keyR merge s r) := by
  cases hmem : htMem s.hash_table (keyR r) with
  | false => rw [matchOne_notmem keyR merge hmem]; exact h
  | true =>
    obtain ⟨b, hb⟩ : ∃ b, htLookup s.hash_table (keyR r) = some b := by
      cases hl : htLookup s.hash_table (keyR r) with
      | none => rw [htMem, hl] at hmem; cases hmem
      | some b => exact ⟨b, rfl⟩
    have D := drain_match (k := keyR r) r merge b s h.keys_nodup h.nodes_nodup h.pairs_perm hb
    rw [matchOne_eq keyR merge h.keys_nodup h.nodes_nodup h.pairs_perm hb]
    set k := keyR r with hk
    set s1 := b.foldl (matchEntryStep merge k r) s with hs1
    set delta := b.map (fun e => (e.node, k, merge e.tup r)) with hdelta
    set s2 : Stage τ σ := { s1 with hash_table := htDelete s1.hash_table k } with hs2
    have hkeys1 : (s1.hash_table.map Prod.fst).Nodup := by
      rw [D.keys_eq]
      exact h.keys_nodup
    have hkb_mem : (k, b) ∈ s.hash_table := mem_of_htLookup hb
    have hbq : ∀ e ∈ b, (e.node, k) ∈ s.queue := fun e he =>
      h.pairs_perm.mem_iff.1 (pair_mem_htPairs hkb_mem he)
    have hbsorted : List.Sorted (· < ·) (b.map WEntry.node) :=
      h.buckets_sorted (k, b) hkb_mem
    have hbnodup : (b.map WEntry.node).Nodup := hbsorted.imp (fun hlt => Nat.ne_of_lt hlt)
    -- facts about the deleted table
    have hht2keys : (s2.hash_table.map Prod.fst).Nodup :=
      hkeys1.sublist ((List.filter_sublist _).map Prod.fst)
    have hht2mem : ∀ p ∈ s2.hash_table, p ∈ s1.hash_table ∧ p.1 ≠ k := by
      intro p hp
      refine ⟨List.mem_of_mem_filter hp, ?_⟩
      have := List.of_mem_filter hp
      simpa using this
    have hht2bucket : ∀ p ∈ s2.hash_table, (p.1, p.2) ∈ s.hash_table := by
      intro p hp
      obtain ⟨hp1, hpk⟩ := hht2mem p hp
      have hl := htLookup_of_mem_nodup hkeys1 hp1
      rw [D.lookup_ne p.1 hpk] at hl
      exact mem_of_htLookup hl
    have hpairs2 : htPairs s2.hash_table = htPairs s1.hash_table :=
      htPairs_htDelete_of_empty hkeys1 D.lookup_self
    have houtput : s2.output = s.output ++ delta := D.output_eq
    have hdeltaids : delta.map (fun o => o.1) = b.map WEntry.node := by
      rw [hdelta, List.map_map]
      rfl
    have hqsub : ∀ p ∈ s2.queue, p ∈ s.queue ∧ p.2 ≠ k := by
      intro p hp
      have hpf : p ∈ s.queue.filter (fun p => p.2 != k) := D.queue_perm.mem_iff.1 hp
      refine ⟨List.mem_of_mem_filter hpf, ?_⟩
      have := List.of_mem_filter hpf
      simpa using this
    refine ⟨D.nodes_nodup1, ?_, hht2keys, ?_, ?_, ?_, ?_, ?_, ?_, ?_, ?_, ?_, ?_, ?_⟩
    · intro p hp
      show p.1 < s1.next_node
      rw [D.next_eq]
      exact h.nodes_lt p (hqsub p hp).1
    · rw [hpairs2]
      exact D.pairs_perm1
    · intro p hp
      exact h.buckets_sorted (p.1, p.2) (hht2bucket p hp)
    · rw [houtput, List.map_append, List.nodup_append]
      refine ⟨h.out_nodup, ?_, ?_⟩
      · rw [hdeltaids]
        exact hbnodup
      · intro x hx hy
        rw [hdeltaids] at hy
        simp only [List.mem_map] at hx hy
        obtain ⟨o, ho, rfl⟩ := hx
        obtain ⟨e, he, heq⟩ := hy
        exact h.out_window_disjoint o ho (e.node, k) (hbq e he) heq.symm
    · intro o ho
      show o.1 < s1.next_node
      rw [D.next_eq]
      rw [houtput] at ho
      rcases List.mem_append.1 ho with h1 | h1
      · exact h.out_lt o h1
      · rw [hdelta] at h1
        simp only [List.mem_map] at h1
        obtain ⟨e, he, rfl⟩ := h1
        exact h.nodes_lt (e.node, k) (hbq e he)
    · intro o ho p hp
      rw [houtput] at ho
      rcases List.mem_append.1 ho with h1 | h1
      · exact h.out_window_disjoint o h1 p (hqsub p hp).1
      · rw [hdelta] at h1
        simp only [List.mem_map] at h1
        obtain ⟨e, he, rfl⟩ := h1
        show e.node ≠ p.1
        intro hcontra
        have hpair : p = (e.node, k) :=
          fst_inj_of_nodup h.nodes_nodup (hqsub p hp).1 (hbq e he) hcontra.symm
        exact (hqsub p hp).2 (by rw [hpair])
    · intro k1
      rw [houtput, List.filter_append, List.map_append]
      by_cases hk1 : k = k1
      · have hdeltafull : delta.filter (fun o => o.2.1 == k1) = delta := by
          refine List.filter_eq_self.2 (fun o hoo => ?_)
          rw [hdelta] at hoo
          simp only [List.mem_map] at hoo
          obtain ⟨e, _, rfl⟩ := hoo
          simpa using hk1
        rw [hdeltafull, hdeltaids]
        rw [List.Sorted, List.pairwise_append]
        refine ⟨h.out_key_sorted k1, hbsorted, ?_⟩
        intro x hx y hy
        simp only [List.mem_map, List.mem_filter] at hx hy
        obtain ⟨o, ⟨ho, hok⟩, rfl⟩ := hx
        obtain ⟨e, he, rfl⟩ := hy
        have hok1 : o.2.1 = k1 := by simpa using hok
        exact h.out_before_window o ho (k, b) hkb_mem e he (by rw [hok1, hk1])
      · have hdeltanil : delta.filter (fun o => o.2.1 == k1) = [] := by
          rw [List.filter_eq_nil_iff]
          intro o hoo
          rw [hdelta] at hoo
          simp only [List.mem_map] at hoo
          obtain ⟨e, _, rfl⟩ := hoo
          simpa using hk1
        rw [hdeltanil]
        simpa using h.out_key_sorted k1
    · intro o ho p hp e1 he1 hok
      rw [houtput] at ho
      rcases List.mem_append.1 ho with h1 | h1
      · exact h.out_before_window o h1 (p.1, p.2) (hht2bucket p hp) e1 he1 hok
      · rw [hdelta] at h1
        simp only [List.mem_map] at h1
        obtain ⟨e, _, rfl⟩ := h1
        exact absurd (hok.symm.trans rfl) (fun hpk => (hht2mem p hp).2 (hpk ▸ rfl))
    · show s1.w + s1.queue.length ≤ cap
      have h1 := D.w_eq
      have h2 := D.queue_len
      have h3 := h.size_bound
      omega
    · intro hq
      have hq1 : s1.queue = [] := hq
      have hq0 : s1.queue.length = 0 := by rw [hq1]; rfl
      cases hbe : b with
      | nil =>
        have hsq : s.queue = [] := by
          have hql := D.queue_len
          rw [hbe] at hql
          simp only [List.length_nil] at hql
          have hlen : s.queue.length = 0 := by omega
          exact List.length_eq_zero.1 hlen
        rcases h.empty_w_pos hsq with h1 | h1
        · left
          have := D.w_eq
          show 1 ≤ s1.w
          omega
        · right
          exact h1
      | cons e rest =>
        left
        have := D.w_eq
        rw [hbe] at this
        simp only [List.length_cons] at this
        show 1 ≤ s1.w
        omega
    · show s1.total_joined = s2.output.length
      have h1 := D.joined_eq1
      have h2 : s2.output.length = s.output.length + delta.length := by
        rw [houtput, List.length_append]
      have h3 := h.joined_eq
      omega
    · show s1.total_output = s2.output.length
      have h1 := D.totout_eq1
      have h2 : s2.output.length = s.output.length + delta.length := by
        rw [houtput, List.length_append]
      have h3 := h.totout_eq
      omega

theorem wf_matchPartition {cap : Nat} {s : Stage τ σ} {part : List ρ} (keyR : ρ → Key)
    (merge : τ → ρ → σ) (h : WF cap s) : WF cap (matchPartition keyR merge s part) := by
  induction part generalizing s with
  | nil => exact h
  | cons r rest ih =>
    show WF cap (rest.foldl (matchOne keyR merge) (matchOne keyR merge s r))
    exact ih (wf_matchOne keyR merge h)

theorem wfCore_of_wf {cap : Nat} {s : Stage τ σ} (h : WF cap s) : WFCore s :=
  ⟨h.nodes_nodup, h.nodes_lt, h.keys_nodup, h.pairs_perm, h.buckets_sorted, h.out_nodup,
    h.out_lt, h.out_window_disjoint, h.out_key_sorted, h.out_before_window, h.joined_eq,
    h.totout_eq⟩

theorem wf_of_core {cap : Nat} {s : Stage τ σ} (h : WFCore s)
    (hsize : s.w + s.queue.length ≤ cap)
    (hempty : s.queue = [] → 1 ≤ s.w ∨ cap = 0) : WF cap s :=
  ⟨h.nodes_nodup, h.nodes_lt, h.keys_nodup, h.pairs_perm, h.buckets_sorted, h.out_nodup,
    h.out_lt, h.out_window_disjoint, h.out_key_sorted, h.out_before_window, hsize, hempty,
    h.joined_eq, h.totout_eq⟩

theorem wfcore_admitOne (keyS : τ → Key) {s : Stage τ σ} (t : τ) (h : WFCore s) :
    WFCore (admitOne keyS s t) := by
  set n := s.next_node with hn
  set k := keyS t with hk
  have hq1 : (admitOne keyS s t).queue = s.queue ++ [(n, k)] := rfl
  have hht1 : (admitOne keyS s t).hash_table = htAppend s.hash_table k ⟨t, n⟩ := rfl
  have hnext : (admitOne keyS s t).next_node = n + 1 := rfl
  have houtput : (admitOne keyS s t).output = s.output := rfl
  have hnode_lt : ∀ e1 ∈ s.queue, e1.1 < n := h.nodes_lt
  refine ⟨?_, ?_, ?_, ?_, ?_, ?_, ?_, ?_, ?_, ?_, h.joined_eq, h.totout_eq⟩
  · rw [hq1, List.map_append, List.nodup_append]
    refine ⟨h.nodes_nodup, by simp, ?_⟩
    intro a ha hb
    simp only [List.map_cons, List.map_nil, List.mem_singleton] at hb
    simp only [List.mem_map] at ha
    obtain ⟨p, hp, rfl⟩ := ha
    exact absurd (hb ▸ hnode_lt p hp) (Nat.lt_irrefl n)
  · intro p hp
    rw [hnext]
    rw [hq1] at hp
    rcases List.mem_append.1 hp with h1 | h1
    · exact Nat.lt_succ_of_lt (hnode_lt p h1)
    · simp only [List.mem_singleton] at h1
      rw [h1]
      exact Nat.lt_succ_self n
  · rw [hht1, htAppend_keys]
    cases hmem : htMem s.hash_table k with
    | true => simpa using h.keys_nodup
    | false =>
      simp only [Bool.false_eq_true, if_false]
      rw [List.nodup_append]
      refine ⟨h.keys_nodup, by simp, ?_⟩
      intro a ha hb
      simp only [List.mem_singleton] at hb
      exact absurd (hb ▸ ha) (notmem_keys_of_htMem_false hmem)
  · rw [hht1, hq1]
    exact (htPairs_htAppend ⟨t, n⟩ h.keys_nodup).trans
      (h.pairs_perm.append (List.Perm.refl [(n, k)]))
  · intro p hp
    rw [hht1] at hp
    cases hmem : htMem s.hash_table k with
    | false =>
      rw [htAppend_notmem _ hmem] at hp
      rcases List.mem_append.1 hp with h1 | h1
      · exact h.buckets_sorted p h1
      · simp only [List.mem_singleton] at h1
        rw [h1]
        simp
    | true =>
      obtain ⟨b, hb⟩ : ∃ b, htLookup s.hash_table k = some b := by
        cases hl : htLookup s.hash_table k with
        | none => rw [htMem, hl] at hmem; cases hmem
        | some b => exact ⟨b, rfl⟩
      obtain ⟨l1, l2, hdec, hl1, hl2⟩ := htLookup_decomp_nodup h.keys_nodup hb
      rw [hdec, htAppend_decomp _ hl1 hl2] at hp
      have hkb_mem : (k, b) ∈ s.hash_table := mem_of_htLookup hb
      rcases List.mem_append.1 hp with h1 | h1
      · exact h.buckets_sorted p (by rw [hdec]; exact List.mem_append_left _ h1)
      · rcases List.mem_cons.1 h1 with h2 | h2
        · rw [h2]
          simp only [List.map_append, List.map_cons, List.map_nil]
          rw [List.Sorted, List.pairwise_append]
          refine ⟨h.buckets_sorted (k, b) hkb_mem, by simp, ?_⟩
          intro x hx y hy
          simp only [List.mem_map] at hx
          simp only [List.mem_cons, List.not_mem_nil, or_false] at hy
          obtain ⟨e1, he1, rfl⟩ := hx
          rw [hy]
          exact hnode_lt (e1.node, k)
            (h.pairs_perm.mem_iff.1 (pair_mem_htPairs hkb_mem he1))
        · have hpmem : p ∈ s.hash_table := by
            rw [hdec]
            exact List.mem_append_right _ (List.mem_cons_of_mem _ h2)
          exact h.buckets_sorted p hpmem
  · rw [houtput]
    exact h.out_nodup
  · intro o ho
    rw [houtput] at ho
    rw [hnext]
    exact Nat.lt_succ_of_lt (h.out_lt o ho)
  · intro o ho p hp
    rw [houtput] at ho
    rw [hq1] at hp
    rcases List.mem_append.1 hp with h1 | h1
    · exact h.out_window_disjoint o ho p h1
    · simp only [List.mem_singleton] at h1
      rw [h1]
      exact Nat.ne_of_lt (h.out_lt o ho)
  · intro k1
    rw [houtput]
    exact h.out_key_sorted k1
  · intro o ho p hp e1 he1 hok
    rw [houtput] at ho
    rw [hht1] at hp
    cases hmem : htMem s.hash_table k with
    | false =>
      rw [htAppend_notmem _ hmem] at hp
      rcases List.mem_append.1 hp with h1 | h1
      · exact h.out_before_window o ho p h1 e1 he1 hok
      · simp only [List.mem_singleton] at h1
        rw [h1] at he1
        simp only [List.mem_singleton] at he1
        rw [he1]
        exact h.out_lt o ho
    | true =>
      obtain ⟨b, hb⟩ : ∃ b, htLookup s.hash_table k = some b := by
        cases hl : htLookup s.hash_table k with
        | none => rw [htMem, hl] at hmem; cases hmem
        | some b => exact ⟨b, rfl⟩
      obtain ⟨l1, l2, hdec, hl1, hl2⟩ := htLookup_decomp_nodup h.keys_nodup hb
      rw [hdec, htAppend_decomp _ hl1 hl2] at hp
      rcases List.mem_append.1 hp with h1 | h1
      · exact h.out_before_window o ho p
          (by rw [hdec]; exact List.mem_append_left _ h1) e1 he1 hok
      · rcases List.mem_cons.1 h1 with h2 | h2
        · have hpk : p.1 = k := by rw [h2]
          have hp2 : p.2 = b ++ [⟨t, n⟩] := by rw [h2]
          rw [hp2] at he1
          rcases List.mem_append.1 he1 with h3 | h3
          · exact h.out_before_window o ho (k, b)
              (by rw [hdec]; simp) e1 (by exact h3) (by rw [hok, hpk])
          · simp only [List.mem_singleton] at h3
            rw [h3]
            exact h.out_lt o ho
        · have hpmem : p ∈ s.hash_table := by
            rw [hdec]
            exact List.mem_append_right _ (List.mem_cons_of_mem _ h2)
          exact h.out_before_window o ho p hpmem e1 he1 hok

theorem admitLoop_count (keyS : τ → Key) (wBound : Nat) :
    ∀ (input : List τ) (s : Stage τ σ) (loaded : Nat),
    (admitLoop keyS wBound s input loaded).1.queue.length + loaded =
      s.queue.length + (admitLoop keyS wBound s input loaded).2.2 ∧
    (loaded ≤ wBound → (admitLoop keyS wBound s input loaded).2.2 ≤ wBound) ∧
    loaded ≤ (admitLoop keyS wBound s input loaded).2.2 ∧
    (admitLoop keyS wBound s input loaded).1.w = s.w ∧
    ((admitLoop keyS wBound s input loaded).2.2 = loaded →
      (admitLoop keyS wBound s input loaded).1 = s ∧
      (admitLoop keyS wBound s input loaded).2.1 = input) ∧
    (input ≠ [] → loaded < wBound → loaded < (admitLoop keyS wBound s input loaded).2.2) := by
  intro input
  induction input with
  | nil =>
    intro s loaded
    exact ⟨rfl, fun hl => hl, Nat.le_refl _, rfl, fun _ => ⟨rfl, rfl⟩,
      fun hne _ => absurd rfl hne⟩
  | cons t rest ih =>
    intro s loaded
    by_cases hl : loaded < wBound
    · rw [show admitLoop keyS wBound s (t :: rest) loaded
          = admitLoop keyS wBound (admitOne keyS s t) rest (loaded + 1) by
        simp only [admitLoop, if_pos hl]]
      obtain ⟨c2, c3, c4, c5, c6, c7⟩ := ih (admitOne keyS s t) (loaded + 1)
      have hq : (admitOne keyS s t).queue.length = s.queue.length + 1 := by
        show (s.queue ++ [(s.next_node, keyS t)]).length = s.queue.length + 1
        simp
      refine ⟨by omega, fun _ => c3 hl, by omega, c5.trans rfl, ?_, fun _ _ => by omega⟩
      intro hcontra
      omega
    · rw [show admitLoop keyS wBound s (t :: rest) loaded = (s, t :: rest, loaded) by
        simp only [admitLoop, if_neg hl]]
      exact ⟨rfl, fun hle => hle, Nat.le_refl _, rfl, fun _ => ⟨rfl, rfl⟩,
        fun _ hlt => absurd hlt hl⟩

theorem admitLoop_wfcore (keyS : τ → Key) (wBound : Nat) :
    ∀ (input : List τ) (s : Stage τ σ) (loaded : Nat), WFCore s →
    WFCore (admitLoop keyS wBound s input loaded).1 := by
  intro input
  induction input with
  | nil => intro s loaded h; exact h
  | cons t rest ih =>
    intro s loaded h
    by_cases hl : loaded < wBound
    · rw [show admitLoop keyS wBound s (t :: rest) loaded
          = admitLoop keyS wBound (admitOne keyS s t) rest (loaded + 1) by
        simp only [admitLoop, if_pos hl]]
      exact ih (admitOne keyS s t) (loaded + 1) (wfcore_admitOne keyS t h)
    · rw [show admitLoop keyS wBound s (t :: rest) loaded = (s, t :: rest, loaded) by
        simp only [admitLoop, if_neg hl]]
      exact h

theorem wfcore_set_w {s : Stage τ σ} (x : Nat) (h : WFCore s) : WFCore { s with w := x } :=
  ⟨h.nodes_nodup, h.nodes_lt, h.keys_nodup, h.pairs_perm, h.buckets_sorted, h.out_nodup,
    h.out_lt, h.out_window_disjoint, h.out_key_sorted, h.out_before_window, h.joined_eq,
    h.totout_eq⟩

theorem wf_admitPhase {cap : Nat} (keyS : τ → Key) {s : Stage τ σ} (input : List τ)
    (h : WF cap s) : WF cap (admitPhase keyS s input).1 := by
  unfold admitPhase
  by_cases hw : 0 < s.w
  · simp only [if_pos hw]
    have c1 := admitLoop_wfcore keyS s.w input s 0 (wfCore_of_wf h)
    obtain ⟨c2, c3, c4, c5, c6, c7⟩ := admitLoop_count keyS s.w input s 0
    set r := admitLoop keyS s.w s input 0 with hr
    by_cases hload : 0 < r.2.2
    · simp only [if_pos hload]
      have hsize : (0 : Nat) + r.1.queue.length ≤ cap := by
        have h1 := h.size_bound
        have h2 := c3 (Nat.zero_le _)
        omega
      refine wf_of_core ?_ hsize ?_
      · exact wfcore_set_w 0 c1
      · intro hq
        exfalso
        have hq1 : r.1.queue = [] := hq
        have : r.1.queue.length = 0 := by rw [hq1]; rfl
        omega
    · simp only [if_neg hload]
      have hz : r.2.2 = 0 := by omega
      rw [(c6 hz).1]
      exact h
  · simp only [if_neg hw]
    exact h

theorem wf_initStage (cap : Nat) : WF cap (initStage τ σ cap) := by
  refine ⟨?_, ?_, ?_, ?_, ?_, ?_, ?_, ?_, ?_, ?_, ?_, ?_, ?_, ?_⟩
  · simp [initStage]
  · intro p hp
    simp [initStage] at hp
  · simp [initStage]
  · exact List.Perm.refl _
  · intro p hp
    simp [initStage] at hp
  · simp [initStage]
  · intro o ho
    simp [initStage] at ho
  · intro o ho
    simp [initStage] at ho
  · intro k1
    simp [initStage]
  · intro o ho
    simp [initStage] at ho
  · simp [initStage]
  · intro _
    cases cap with
    | zero => exact Or.inr rfl
    | succ m => exact Or.inl (Nat.succ_le_succ (Nat.zero_le m))
  · simp [initStage]
  · simp [initStage]

/-- Every state reachable by admissions, flushes and partition matches from
the initialised stage satisfies the window invariant. -/
theorem reachable_wf {keyS : τ → Key} {keyR : ρ → Key} {merge : τ → ρ → σ} {cap : Nat}
    {s : Stage τ σ} (h : Reachable keyS keyR merge cap s) : WF cap s := by
  induction h with
  | init => exact wf_initStage cap
  | step _ hstep ih =>
    cases hstep with
    | load input => exact wf_admitPhase _ input ih
    | flush k => exact wf_flushKey ih
    | probe part => exact wf_matchPartition _ _ ih

end WFPreservation

/-! ### Per-key effects of the matching loop -/

section MatchEffects

variable {τ ρ σ : Type} [DecidableEq τ]

/-- After processing one disk record, the bucket of its key is gone: either
it was absent already, or the drain emptied it and the `del` removed it. -/
theorem matchOne_lookup_none {cap : Nat} (keyR : ρ → Key) (merge : τ → ρ → σ)
    {s : Stage τ σ} (h : WF cap s) (r : ρ) :
    htLookup (matchOne keyR merge s r).hash_table (keyR r) = none := by
  cases hmem : htMem s.hash_table (keyR r) with
  | false =>
    rw [matchOne_notmem keyR merge hmem]
    rw [htMem] at hmem
    cases hl : htLookup s.hash_table (keyR r) with
    | none => rfl
    | some b => rw [hl] at hmem; cases hmem
  | true =>
    obtain ⟨b, hb⟩ : ∃ b, htLookup s.hash_table (keyR r) = some b := by
      cases hl : htLookup s.hash_table (keyR r) with
      | none => rw [htMem, hl] at hmem; cases hmem
      | some b => exact ⟨b, rfl⟩
    rw [matchOne_eq keyR merge h.keys_nodup h.nodes_nodup h.pairs_perm hb]
    exact htLookup_htDelete_self _ _

/-- Processing a disk record never recreates a bucket: an absent key stays
absent. -/
theorem matchOne_preserves_none {cap : Nat} (keyR : ρ → Key) (merge : τ → ρ → σ)
    {s : Stage τ σ} {k : Key} (h : WF cap s)
    (hnone : htLookup s.hash_table k = none) (r : ρ) :
    htLookup (matchOne keyR merge s r).hash_table k = none := by
  by_cases hk : keyR r = k
  · rw [← hk]
    exact matchOne_lookup_none keyR merge h r
  · cases hmem : htMem s.hash_table (keyR r) with
    | false => rw [matchOne_notmem keyR merge hmem]; exact hnone
    | true =>
      obtain ⟨b, hb⟩ : ∃ b, htLookup s.hash_table (keyR r) = some b := by
        cases hl : htLookup s.hash_table (keyR r) with
        | none => rw [htMem, hl] at hmem; cases hmem
        | some b => exact ⟨b, rfl⟩
      have D := drain_match (k := keyR r) r merge b s h.keys_nodup h.nodes_nodup
        h.pairs_perm hb
      rw [matchOne_eq keyR merge h.keys_nodup h.nodes_nodup h.pairs_perm hb]
      have hne : k ≠ keyR r := fun he => hk he.symm
      rw [htLookup_htDelete_ne hne]
      rw [D.lookup_ne k hne]
      exact hnone

/-- A record for a key with no pending bucket leaves the stage state
unchanged. -/
theorem matchOne_of_lookup_none {s : Stage τ σ} (keyR : ρ → Key) (merge : τ → ρ → σ)
    {r : ρ} (hnone : htLookup s.hash_table (keyR r) = none) :
    matchOne keyR merge s r = s := by
  apply matchOne_notmem
  rw [htMem, hnone]
  rfl

/-- Processing a record of a different key leaves the bucket of `k` and the
key-`k` outputs untouched. -/
theorem matchOne_other_key {cap : Nat} (keyR : ρ → Key) (merge : τ → ρ → σ)
    {s : Stage τ σ} {k : Key} (h : WF cap s) {r : ρ} (hne : keyR r ≠ k) :
    htLookup (matchOne keyR merge s r).hash_table k = htLookup s.hash_table k ∧
    (matchOne keyR merge s r).output.filter (fun o => o.2.1 == k)
      = s.output.filter (fun o => o.2.1 == k) := by
  cases hmem : htMem s.hash_table (keyR r) with
  | false => rw [matchOne_notmem keyR merge hmem]; exact ⟨rfl, rfl⟩
  | true =>
    obtain ⟨b, hb⟩ : ∃ b, htLookup s.hash_table (keyR r) = some b := by
      cases hl : htLookup s.hash_table (keyR r) with
      | none => rw [htMem, hl] at hmem; cases hmem
      | some b => exact ⟨b, rfl⟩
    have D := drain_match (k := keyR r) r merge b s h.keys_nodup h.nodes_nodup
      h.pairs_perm hb
    rw [matchOne_eq keyR merge h.keys_nodup h.nodes_nodup h.pairs_perm hb]
    constructor
    · rw [htLookup_htDelete_ne (fun he => hne he.symm)]
      exact D.lookup_ne k (fun he => hne he.symm)
    · show (b.foldl (matchEntryStep merge (keyR r) r) s).output.filter _ = _
      rw [D.output_eq, List.filter_append]
      have hnil : (b.map (fun e => (e.node, keyR r, merge e.tup r))).filter
          (fun o => o.2.1 == k) = [] := by
        rw [List.filter_eq_nil_iff]
        intro o hoo
        simp only [List.mem_map] at hoo
        obtain ⟨e, _, rfl⟩ := hoo
        simpa using hne
      rw [hnil, List.append_nil]

/-- Processing a whole partition while the bucket of `k` is absent adds no
key-`k` output and keeps the bucket absent. -/
theorem matchPartition_none {cap : Nat} (keyR : ρ → Key) (merge : τ → ρ → σ)
    {k : Key} (part : List ρ) :
    ∀ {s : Stage τ σ}, WF cap s → htLookup s.hash_table k = none →
    htLookup (matchPartition keyR merge s part).hash_table k = none ∧
    (matchPartition keyR merge s part).output.filter (fun o => o.2.1 == k)
      = s.output.filter (fun o => o.2.1 == k) := by
  induction part with
  | nil => intro s _ hnone; exact ⟨hnone, rfl⟩
  | cons r rest ih =>
    intro s h hnone
    have hstep : matchPartition keyR merge s (r :: rest)
        = matchPartition keyR merge (matchOne keyR merge s r) rest := rfl
    rw [hstep]
    by_cases hk : keyR r = k
    · have heq : matchOne keyR merge s r = s :=
        matchOne_of_lookup_none keyR merge (by rw [hk]; exact hnone)
      rw [heq]
      exact ih h hnone
    · have hout := (matchOne_other_key keyR merge h (k := k) hk).2
      have hn1 := matchOne_preserves_none keyR merge h hnone r
      have hwf1 := wf_matchOne keyR merge h (r := r)
      obtain ⟨ha, hb2⟩ := ih hwf1 hn1
      exact ⟨ha, hb2.trans hout⟩

/-- Processing a partition with no record keyed `k` leaves the bucket of
`k` and the key-`k` outputs untouched. -/
theorem matchPartition_avoid {cap : Nat} (keyR : ρ → Key) (merge : τ → ρ → σ)
    {k : Key} (part : List ρ) :
    ∀ {s : Stage τ σ}, WF cap s → k ∉ part.map keyR →
    htLookup (matchPartition keyR merge s part).hash_table k = htLookup s.hash_table k ∧
    (matchPartition keyR merge s part).output.filter (fun o => o.2.1 == k)
      = s.output.filter (fun o => o.2.1 == k) := by
  induction part with
  | nil => intro s _ _; exact ⟨rfl, rfl⟩
  | cons r rest ih =>
    intro s h hk
    have hne : keyR r ≠ k := by
      intro he
      exact hk (by rw [← he]; exact List.mem_map_of_mem keyR (List.mem_cons_self r rest))
    have hstep : matchPartition keyR merge s (r :: rest)
        = matchPartition keyR merge (matchOne keyR merge s r) rest := rfl
    rw [hstep]
    have h1 := matchOne_other_key keyR merge h (k := k) hne
    have hwf1 := wf_matchOne keyR merge h (r := r)
    have hrest : k ∉ rest.map keyR := fun hm => hk (List.mem_cons_of_mem _ hm)
    obtain ⟨ha, hb2⟩ := ih hwf1 hrest
    exact ⟨ha.trans h1.1, hb2.trans h1.2⟩

/-- Once some record of the partition carried key `k`, the bucket of `k` is
absent from the index for the rest of the partition. -/
theorem matchPartition_hits_none {cap : Nat} (keyR : ρ → Key) (merge : τ → ρ → σ)
    {k : Key} (part : List ρ) :
    ∀ {s : Stage τ σ}, WF cap s → k ∈ part.map keyR →
    htLookup (matchPartition keyR merge s part).hash_table k = none := by
  induction part with
  | nil => intro s _ hk; cases hk
  | cons r rest ih =>
    intro s h hk
    have hstep : matchPartition keyR merge s (r :: rest)
        = matchPartition keyR merge (matchOne keyR merge s r) rest := rfl
    rw [hstep]
    have hwf1 := wf_matchOne keyR merge h (r := r)
    by_cases hkr : keyR r = k
    · have hnone : htLookup (matchOne keyR merge s r).hash_table k = none := by
        rw [← hkr]
        exact matchOne_lookup_none keyR merge h r
      exact (matchPartition_none keyR merge rest hwf1 hnone).1
    · have hmem : k ∈ rest.map keyR := by
        simp only [List.map_cons, List.mem_cons] at hk
        rcases hk with h1 | h1
        · exact absurd h1.symm hkr
        · exact h1
      exact ih hwf1 hmem

end MatchEffects

/-! ### The enrichment merge is the union of the two field sets -/

section DictLemmas

theorem dictLookup_append (d1 d2 : Dict) (f : String) :
    dictLookup (d1 ++ d2) f =
      match dictLookup d1 f with
      | some v => some v
      | none => dictLookup d2 f := by
  induction d1 with
  | nil => rfl
  | cons hd tl ih =>
    show dictLookup (hd :: (tl ++ d2)) f = _
    unfold dictLookup
    simp only [List.find?_cons]
    cases hhd : (hd.1 == f) with
    | true => rfl
    | false => exact ih

theorem dictLookup_cons (p : String × Int) (d : Dict) (f : String) :
    dictLookup (p :: d) f = if p.1 == f then some p.2 else dictLookup d f := by
  unfold dictLookup
  simp only [List.find?_cons]
  cases p.1 == f <;> rfl

theorem dictLookup_upd_map (base upd : Dict) (f : String) :
    dictLookup (base.map (fun p =>
        match dictLookup upd p.1 with
        | some v => (p.1, v)
        | none => p)) f =
      match dictLookup base f with
      | some w =>
        match dictLookup upd f with
        | some v => some v
        | none => some w
      | none => none := by
  induction base with
  | nil => rfl
  | cons hd tl ih =>
    simp only [List.map_cons]
    cases hupd : dictLookup upd hd.1 with
    | some v =>
      simp only [hupd]
      rw [dictLookup_cons, dictLookup_cons]
      by_cases hf : hd.1 = f
      · have ht : (hd.1 == f) = true := by simpa using hf
        rw [ht]
        simp only [if_true]
        rw [← hf, hupd]
      · have hb : (hd.1 == f) = false := by simpa using hf
        rw [hb]
        simp only [Bool.false_eq_true, if_false]
        exact ih
    | none =>
      simp only [hupd]
      rw [dictLookup_cons, dictLookup_cons]
      by_cases hf : hd.1 = f
      · have ht : (hd.1 == f) = true := by simpa using hf
        rw [ht]
        simp only [if_true]
        rw [← hf, hupd]
      · have hb : (hd.1 == f) = false := by simpa using hf
        rw [hb]
        simp only [Bool.false_eq_true, if_false]
        exact ih

theorem dictLookup_filter_keep (d : Dict) (pred : String × Int → Bool) (f : String)
    (hkeep : ∀ p : String × Int, p.1 = f → pred p = true) :
    dictLookup (d.filter pred) f = dictLookup d f := by
  induction d with
  | nil => rfl
  | cons hd tl ih =>
    rw [List.filter_cons]
    by_cases hp : pred hd = true
    · rw [hp]
      simp only [if_true]
      show dictLookup (hd :: tl.filter pred) f = dictLookup (hd :: tl) f
      unfold dictLookup
      simp only [List.find?_cons]
      cases hhd : (hd.1 == f) with
      | true => rfl
      | false => exact ih
    · have hp0 : pred hd = false := by
        cases hb : pred hd with
        | false => rfl
        | true => exact absurd hb hp
      rw [hp0]
      simp only [Bool.false_eq_true, if_false]
      have hhd : (hd.1 == f) = false := by
        by_cases he : hd.1 = f
        · exact absurd (hkeep hd he) hp
        · simpa using he
      rw [ih]
      show dictLookup tl f = dictLookup (hd :: tl) f
      unfold dictLookup
      simp only [List.find?_cons, hhd]

/-- The enriched tuple built by `copy()` followed by `update(...)` looks up
every field as: the disk value when the disk row carries the field,
otherwise the stream value — the union of the two field sets with the disk
row winning on collisions. -/
theorem dictLookup_pyUpdate (base upd : Dict) (f : String) :
    dictLookup (pyUpdate base upd) f =
      match dictLookup upd f with
      | some v => some v
      | none => dictLookup base f := by
  unfold pyUpdate
  rw [dictLookup_append, dictLookup_upd_map]
  cases hb : dictLookup base f with
  | some w => cases hu : dictLookup upd f <;> rfl
  | none =>
    have hnf : f ∉ base.map Prod.fst := by
      intro hmem
      simp only [List.mem_map] at hmem
      obtain ⟨p, hp, rfl⟩ := hmem
      have hsome : (base.find? (fun q => q.1 == p.1)).isSome :=
        List.find?_isSome.2 ⟨p, hp, by simp⟩
      rw [dictLookup] at hb
      cases hfind : base.find? (fun q => q.1 == p.1) with
      | none => rw [hfind] at hsome; cases hsome
      | some x => rw [hfind] at hb; cases hb
    have hkeep : ∀ p : String × Int, p.1 = f →
        (fun p : String × Int => !((base.map Prod.fst).contains p.1)) p = true := by
      intro p hp
      simp only []
      rw [hp]
      simp only [Bool.not_eq_true']
      cases hc : (base.map Prod.fst).contains f with
      | false => rfl
      | true =>
        exfalso
        exact hnf (by simpa using hc)
    rw [dictLookup_filter_keep upd (fun p => !((base.map Prod.fst).contains p.1)) f hkeep]
    cases hu : dictLookup upd f <;> rfl

end DictLemmas

/-! ### Iteration-level support lemmas -/

section IterationLemmas

variable {τ ρ σ : Type} [DecidableEq τ]

theorem admitPhase_nil (keyS : τ → Key) (s : Stage τ σ) :
    admitPhase keyS s [] = (s, []) := by
  unfold admitPhase
  by_cases hw : 0 < s.w
  · rw [if_pos hw]
    rfl
  · rw [if_neg hw]

/-- When the window is empty after the admission phase, the phase admitted
nothing: the window was empty before, the state is unchanged and the whole
input remains. -/
theorem admitPhase_empty_queue (keyS : τ → Key) (s : Stage τ σ) (input : List τ)
    (hq : (admitPhase keyS s input).1.queue = []) :
    s.queue = [] ∧ (admitPhase keyS s input).1 = s ∧
      (admitPhase keyS s input).2 = input := by
  by_cases hw : 0 < s.w
  · obtain ⟨c2, c3, c4, c5, c6, c7⟩ := admitLoop_count keyS s.w input s 0
    set r := admitLoop keyS s.w s input 0 with hr
    have hphase : admitPhase keyS s input
        = (if 0 < r.2.2 then { r.1 with w := 0 } else r.1, r.2.1) := by
      unfold admitPhase
      rw [if_pos hw]
    rw [hphase] at hq ⊢
    by_cases hload : 0 < r.2.2
    · exfalso
      rw [if_pos hload] at hq
      have hq1 : r.1.queue = [] := hq
      have hlen : r.1.queue.length = 0 := by rw [hq1]; rfl
      omega
    · rw [if_neg hload] at hq ⊢
      have hz : r.2.2 = 0 := by omega
      obtain ⟨he1, he2⟩ := c6 hz
      rw [he1] at hq ⊢
      rw [he2]
      have hlen : s.queue.length = 0 := by rw [hq]; rfl
      exact ⟨hq, rfl, rfl⟩
  · have hphase : admitPhase keyS s input = (s, input) := by
      unfold admitPhase
      rw [if_neg hw]
    rw [hphase] at hq ⊢
    exact ⟨hq, rfl, rfl⟩

theorem dllIsEmpty_false_of_peek {q : DLL} {k : Key} (h : dllPeekFront q = some k) :
    dllIsEmpty q = false := by
  cases q with
  | nil => simp [dllPeekFront] at h
  | cons hd tl => rfl

theorem dllPeekFront_eq_none {q : DLL} (h : dllPeekFront q = none) : q = [] := by
  cases q with
  | nil => rfl
  | cons hd tl => simp [dllPeekFront] at h

/-- Every state produced by one iteration of the consumer loop is reachable
by the admission/flush/match operations, so the invariant theorems cover
the actual loop execution. -/
theorem runIteration_preserves_reachable {τ ρ σ : Type} [DecidableEq τ] (keyS : τ → Key)
    (keyR : ρ → Key) (merge : τ → ρ → σ) (cap : Nat)
    (loader : Key → Except Unit (List ρ)) (upstream : Bool) {s : Stage τ σ}
    (input : List τ) (h : Reachable keyS keyR merge cap s) :
    (∀ (s1 : Stage τ σ) (rest : List τ),
      runIteration keyS keyR merge cap loader upstream s input
        = IterResult.next s1 rest → Reachable keyS keyR merge cap s1) ∧
    (∀ (s1 : Stage τ σ) (rest : List τ),
      runIteration keyS keyR merge cap loader upstream s input
        = IterResult.terminated s1 rest → Reachable keyS keyR merge cap s1) := by
  have hadm : Reachable keyS keyR merge cap (admitPhase keyS s input).1 :=
    Reachable.step h (StageStep.load s input)
  constructor <;> intro s1 rest hres
  · by_cases hqe : dllIsEmpty (admitPhase keyS s input).1.queue = true
    · by_cases hcond : (upstream && (admitPhase keyS s input).2.isEmpty) = true
      · simp only [runIteration, hqe, if_true, hcond] at hres
        cases hres
      · have hcond0 : (upstream && (admitPhase keyS s input).2.isEmpty) = false := by
          cases hb : (upstream && (admitPhase keyS s input).2.isEmpty) with
          | false => rfl
          | true => exact absurd hb hcond
        simp only [runIteration, hqe, if_true, hcond0, Bool.false_eq_true, if_false]
          at hres
        cases hres
        exact hadm
    · have hqf : dllIsEmpty (admitPhase keyS s input).1.queue = false := by
        cases hb : dllIsEmpty (admitPhase keyS s input).1.queue with
        | false => rfl
        | true => exact absurd hb hqe
      cases hpeek : dllPeekFront (admitPhase keyS s input).1.queue with
      | none =>
        exfalso
        have := dllPeekFront_eq_none hpeek
        rw [dllIsEmpty, this] at hqf
        cases hqf
      | some k =>
        cases hload : loader k with
        | error e =>
          simp only [runIteration, hqf, Bool.false_eq_true, if_false, hpeek, hload]
            at hres
          cases hres
          exact Reachable.step hadm (StageStep.flush _ k)
        | ok part =>
          by_cases hpe : part.isEmpty = true
          · simp only [runIteration, hqf, Bool.false_eq_true, if_false, hpeek, hload,
              hpe, if_true] at hres
            cases hres
            exact Reachable.step hadm (StageStep.flush _ k)
          · have hpe0 : part.isEmpty = false := by
              cases hb : part.isEmpty with
              | false => rfl
              | true => exact absurd hb hpe
            simp only [runIteration, hqf, Bool.false_eq_true, if_false, hpeek, hload,
              hpe0, Bool.false_eq_true] at hres
            cases hres
            exact Reachable.step hadm (StageStep.probe _ part)
  · by_cases hqe : dllIsEmpty (admitPhase keyS s input).1.queue = true
    · by_cases hcond : (upstream && (admitPhase keyS s input).2.isEmpty) = true
      · simp only [runIteration, hqe, if_true, hcond] at hres
        cases hres
        exact hadm
      · have hcond0 : (upstream && (admitPhase keyS s input).2.isEmpty) = false := by
          cases hb : (upstream && (admitPhase keyS s input).2.isEmpty) with
          | false => rfl
          | true => exact absurd hb hcond
        simp only [runIteration, hqe, if_true, hcond0, Bool.false_eq_true, if_false]
          at hres
        cases hres
    · have hqf : dllIsEmpty (admitPhase keyS s input).1.queue = false := by
        cases hb : dllIsEmpty (admitPhase keyS s input).1.queue with
        | false => rfl
        | true => exact absurd hb hqe
      cases hpeek : dllPeekFront (admitPhase keyS s input).1.queue with
      | none =>
        exfalso
        have := dllPeekFront_eq_none hpeek
        rw [dllIsEmpty, this] at hqf
        cases hqf
      | some k =>
        cases hload : loader k with
        | error e =>
          simp only [runIteration, hqf, Bool.false_eq_true, if_false, hpeek, hload]
            at hres
          cases hres
        | ok part =>
          by_cases hpe : part.isEmpty = true
          · simp only [runIteration, hqf, Bool.false_eq_true, if_false, hpeek, hload,
              hpe, if_true] at hres
            cases hres
          · have hpe0 : part.isEmpty = false := by
              cases hb : part.isEmpty with
              | false => rfl
              | true => exact absurd hb hpe
            simp only [runIteration, hqf, Bool.false_eq_true, if_false, hpeek, hload,
              hpe0, Bool.false_eq_true] at hres
            cases hres

end IterationLemmas

/-! ### The claims -/

/-- C1: for every join stage — any key extractors, enrichment function and
window capacity — and every interleaving of admissions, partition matches
and flushes starting from the initialised stage, the number of pending
window entries (the length of the FIFO kept by the `DoublyLinkedList`)
never exceeds the window capacity, at every observation point between
operations and regardless of how much input has been streamed. -/
theorem claim_C1 {τ ρ σ : Type} [DecidableEq τ] (keyS : τ → Key) (keyR : ρ → Key)
    (merge : τ → ρ → σ) (cap : Nat) (s : Stage τ σ)
    (h : Reachable keyS keyR merge cap s) : s.queue.length ≤ cap := by
  have hs := (reachable_wf h).size_bound
  omega

/-- Witness for C1 at a concrete reachable state: a stage with the window
capacity `HS` of the source that admitted from the stream `[5, 5, 7]`. -/
theorem claim_C1_witness :
    (admitPhase (fun t : Int => t) (initStage Int Int HS) [5, 5, 7]).1.queue.length ≤ HS :=
  claim_C1 (fun t => t) (fun r : Int => r) (fun t r => t + r) HS _
    (Reachable.step Reachable.init (StageStep.load _ [5, 5, 7]))

/-- C2 counterexample: admitting a single tuple into an empty window of
capacity 2 leaves `free = 0` (line 185 sets `self.w = 0` after the
admission loop) while `|order| = 1`, so `free + |order| = 1 ≠ 2` at an
observation point between operations — not mid-admission — refuting the
claimed equality and the claimed per-tuple decrement of `free`. -/
theorem claim_C2_counterexample :
    Reachable (fun t : Int => t) (fun r : Int => r) (fun t r => t + r) 2
      (admitPhase (fun t : Int => t) (initStage Int Int 2) [5]).1 ∧
    ¬ ((admitPhase (fun t : Int => t) (initStage Int Int 2) [5]).1.w +
        (admitPhase (fun t : Int => t) (initStage Int Int 2) [5]).1.queue.length = 2) :=
  ⟨Reachable.step Reachable.init (StageStep.load _ [5]), by decide⟩

/-- C2 (amended): the window maintains `free + |order| ≤ capacity` at every
reachable observation point; each removal (by match or flush) increments
`free` by exactly one; but an admission phase that loads at least one tuple
sets `free` to zero rather than decrementing it once per admitted tuple, so
the claimed equality `free + |order| = capacity` does not hold. -/
theorem claim_C2 {τ ρ σ : Type} [DecidableEq τ] (keyS : τ → Key) (keyR : ρ → Key)
    (merge : τ → ρ → σ) (cap : Nat) :
    (∀ s : Stage τ σ, Reachable keyS keyR merge cap s → s.w + s.queue.length ≤ cap) ∧
    (∀ (k : Key) (s : Stage τ σ) (e : WEntry τ), (removeEntry k s e).w = s.w + 1) ∧
    (∀ (k : Key) (r : ρ) (s : Stage τ σ) (e : WEntry τ),
      (matchEntryStep merge k r s e).w = s.w + 1) ∧
    (∀ (s : Stage τ σ) (input : List τ), 0 < s.w →
      0 < (admitLoop keyS s.w s input 0).2.2 → (admitPhase keyS s input).1.w = 0) := by
  refine ⟨fun s h => (reachable_wf h).size_bound, fun k s e => rfl, fun k r s e => rfl, ?_⟩
  intro s input hw hload
  unfold admitPhase
  simp only [if_pos hw, if_pos hload]

/-- Witness for C2 (amended) at concrete inputs. -/
theorem claim_C2_witness :
    ((admitPhase (fun t : Int => t) (initStage Int Int 2) [5]).1.w +
      (admitPhase (fun t : Int => t) (initStage Int Int 2) [5]).1.queue.length ≤ 2) ∧
    (removeEntry 5 (initStage Int Int 2) ⟨5, 0⟩).w = (initStage Int Int 2).w + 1 ∧
    (matchEntryStep (fun t r : Int => t + r) 5 5 (initStage Int Int 2) ⟨5, 0⟩).w
      = (initStage Int Int 2).w + 1 ∧
    (admitPhase (fun t : Int => t) (initStage Int Int 2) [5]).1.w = 0 :=
  ⟨(claim_C2 (fun t : Int => t) (fun r : Int => r) (fun t r => t + r) 2).1 _
      (Reachable.step Reachable.init (StageStep.load _ [5])),
    (claim_C2 (fun t : Int => t) (fun r : Int => r) (fun t r => t + r) 2).2.1 5 _ _,
    (claim_C2 (fun t : Int => t) (fun r : Int => r) (fun t r => t + r) 2).2.2.1 5 5 _ _,
    (claim_C2 (fun t : Int => t) (fun r : Int => r) (fun t r => t + r) 2).2.2.2 _ [5]
      (by decide) (by decide)⟩

/-- C3: when the partition fetch for the oldest key fails with an I/O error
or returns an empty partition, the iteration flushes exactly the bucket of
that key: the bucket is emptied in the hash index, precisely the key-`k`
pairs leave the FIFO, `free` grows by exactly the number of flushed
entries, nothing is forwarded downstream (the output is unchanged), and the
iteration returns `next` — no exception escapes and the stage returns to
admitting; since no entry of the key remains pending, the failed key is not
retried. -/
theorem claim_C3 {τ ρ σ : Type} [DecidableEq τ] (keyS : τ → Key) (keyR : ρ → Key)
    (merge : τ → ρ → σ) (cap : Nat) (loader : Key → Except Unit (List ρ))
    (upstream : Bool) (s : Stage τ σ) (input : List τ) (k : Key) (b : Bucket τ)
    (hreach : Reachable keyS keyR merge cap s)
    (hpeek : dllPeekFront (admitPhase keyS s input).1.queue = some k)
    (hb : htLookup (admitPhase keyS s input).1.hash_table k = some b)
    (hfail : loader k = Except.error () ∨ loader k = Except.ok []) :
    runIteration keyS keyR merge cap loader upstream s input
      = IterResult.next (flushKey k (admitPhase keyS s input).1)
          (admitPhase keyS s input).2 ∧
    htLookup (flushKey k (admitPhase keyS s input).1).hash_table k = some [] ∧
    List.Perm (flushKey k (admitPhase keyS s input).1).queue
      ((admitPhase keyS s input).1.queue.filter (fun p => p.2 != k)) ∧
    (flushKey k (admitPhase keyS s input).1).w
      = (admitPhase keyS s input).1.w + b.length ∧
    (flushKey k (admitPhase keyS s input).1).output
      = (admitPhase keyS s input).1.output := by
  have hwf1 : WF cap (admitPhase keyS s input).1 :=
    wf_admitPhase keyS input (reachable_wf hreach)
  have D := flushKey_spec (σ := σ) hwf1.keys_nodup hwf1.nodes_nodup hwf1.pairs_perm hb
  have hempty := dllIsEmpty_false_of_peek hpeek
  refine ⟨?_, D.lookup_self, D.queue_perm, D.w_eq,
    D.output_eq.trans (List.append_nil _)⟩
  simp only [runIteration, hempty, Bool.false_eq_true, if_false, hpeek]
  rcases hfail with he | he
  · rw [he]
  · rw [he]
    rfl

/-- Witness for C3: a stage holding one tuple keyed 5, probed with a loader
that returns an empty partition. -/
theorem claim_C3_witness :
    runIteration (fun t : Int => t) (fun r : Int => r) (fun t r => t + r) 2
      (fun _ => Except.ok ([] : List Int)) false (initStage Int Int 2) [5]
      = IterResult.next
          (flushKey 5 (admitPhase (fun t : Int => t) (initStage Int Int 2) [5]).1)
          (admitPhase (fun t : Int => t) (initStage Int Int 2) [5]).2 :=
  (claim_C3 (fun t : Int => t) (fun r : Int => r) (fun t r => t + r) 2
    (fun _ => Except.ok []) false (initStage Int Int 2) [5] 5 [⟨5, 0⟩]
    Reachable.init (by decide) (by decide) (Or.inr rfl)).1

/-- C4: within one fetched partition, only the first row carrying a given
key drains that key's bucket; a later row whose key already occurred
earlier in the partition finds the bucket deleted, matches nothing,
produces no EnrichedTuple, and leaves the stage state entirely unchanged —
processing the partition with or without the duplicate row gives the same
state. -/
theorem claim_C4 {τ ρ σ : Type} [DecidableEq τ] (keyS : τ → Key) (keyR : ρ → Key)
    (merge : τ → ρ → σ) (cap : Nat) (s : Stage τ σ)
    (hreach : Reachable keyS keyR merge cap s) (p1 p2 : List ρ) (r : ρ)
    (hdup : keyR r ∈ p1.map keyR) :
    matchPartition keyR merge s (p1 ++ r :: p2)
      = matchPartition keyR merge s (p1 ++ p2) := by
  have hwf := reachable_wf hreach
  have hnone := matchPartition_hits_none keyR merge p1 hwf hdup
  have heq : matchOne keyR merge (matchPartition keyR merge s p1) r
      = matchPartition keyR merge s p1 := matchOne_of_lookup_none keyR merge hnone
  have h1 : matchPartition keyR merge s (p1 ++ r :: p2)
      = matchPartition keyR merge
          (matchOne keyR merge (matchPartition keyR merge s p1) r) p2 := by
    show (p1 ++ r :: p2).foldl (matchOne keyR merge) s = _
    rw [List.foldl_append]
    rfl
  have h2 : matchPartition keyR merge s (p1 ++ p2)
      = matchPartition keyR merge (matchPartition keyR merge s p1) p2 := by
    show (p1 ++ p2).foldl (matchOne keyR merge) s = _
    rw [List.foldl_append]
    rfl
  rw [h1, h2, heq]

/-- Witness for C4: a stage pending two tuples keyed 5, probed with the
partition `[5, 5]` — the duplicate second row changes nothing. -/
theorem claim_C4_witness :
    matchPartition (fun r : Int => r) (fun t r : Int => t + r)
      (admitPhase (fun t : Int => t) (initStage Int Int 2) [5, 5]).1 ([5] ++ 5 :: [])
      = matchPartition (fun r : Int => r) (fun t r : Int => t + r)
          (admitPhase (fun t : Int => t) (initStage Int Int 2) [5, 5]).1 ([5] ++ []) :=
  claim_C4 (fun t : Int => t) (fun r : Int => r) (fun t r : Int => t + r) 2 _
    (Reachable.step Reachable.init (StageStep.load _ [5, 5]))
    [5] [] 5 (by decide)

/-- C5: when `N` stream tuples sharing join key `k` are pending and a
partition is matched whose first row keyed `k` is `r`, exactly those `N`
entries are matched, all against this one row `r`, producing exactly `N`
EnrichedTuples in the key-`k` output, each being `pyUpdate` of one pending
stream tuple with `r` — and `pyUpdate` realises the union of both field
sets, the disk row winning on common fields (the `copy()`/`update()` merge
of the code). -/
theorem claim_C5 (keyS keyR : Dict → Key) (cap : Nat) (s : Stage Dict Dict)
    (hreach : Reachable keyS keyR pyUpdate cap s) (k : Key) (b : Bucket Dict)
    (p1 p2 : List Dict) (r : Dict) (hb : htLookup s.hash_table k = some b)
    (hkr : keyR r = k) (hfirst : k ∉ p1.map keyR) :
    (matchPartition keyR pyUpdate s (p1 ++ r :: p2)).output.filter (fun o => o.2.1 == k)
      = s.output.filter (fun o => o.2.1 == k)
        ++ b.map (fun e => (e.node, k, pyUpdate e.tup r)) ∧
    ((matchPartition keyR pyUpdate s (p1 ++ r :: p2)).output.filter
        (fun o => o.2.1 == k)).length
      = (s.output.filter (fun o => o.2.1 == k)).length + b.length ∧
    (∀ e ∈ b, ∀ f : String, dictLookup (pyUpdate e.tup r) f
      = match dictLookup r f with
        | some v => some v
        | none => dictLookup e.tup f) := by
  have hwf := reachable_wf hreach
  have hwf1 : WF cap (matchPartition keyR pyUpdate s p1) :=
    wf_matchPartition keyR pyUpdate hwf
  obtain ⟨havoid1, havoid2⟩ := matchPartition_avoid keyR pyUpdate p1 hwf hfirst
  have hb1 : htLookup (matchPartition keyR pyUpdate s p1).hash_table (keyR r) = some b := by
    rw [hkr, havoid1]
    exact hb
  have D := drain_match (k := keyR r) r pyUpdate b (matchPartition keyR pyUpdate s p1)
    hwf1.keys_nodup hwf1.nodes_nodup hwf1.pairs_perm hb1
  have hs2 := matchOne_eq keyR pyUpdate hwf1.keys_nodup hwf1.nodes_nodup
    hwf1.pairs_perm hb1
  have hwf2 : WF cap (matchOne keyR pyUpdate (matchPartition keyR pyUpdate s p1) r) :=
    wf_matchOne keyR pyUpdate hwf1
  have hnone2 : htLookup (matchOne keyR pyUpdate
      (matchPartition keyR pyUpdate s p1) r).hash_table k = none := by
    rw [← hkr]
    exact matchOne_lookup_none keyR pyUpdate hwf1 r
  obtain ⟨_, hkeep⟩ := matchPartition_none keyR pyUpdate p2 hwf2 hnone2
  have hsplit : matchPartition keyR pyUpdate s (p1 ++ r :: p2)
      = matchPartition keyR pyUpdate
          (matchOne keyR pyUpdate (matchPartition keyR pyUpdate s p1) r) p2 := by
    show (p1 ++ r :: p2).foldl (matchOne keyR pyUpdate) s = _
    rw [List.foldl_append]
    rfl
  have hout2 : (matchOne keyR pyUpdate (matchPartition keyR pyUpdate s p1) r).output
      = (matchPartition keyR pyUpdate s p1).output
        ++ b.map (fun e => (e.node, keyR r, pyUpdate e.tup r)) := by
    rw [hs2]
    exact D.output_eq
  have hfilter2 : (matchOne keyR pyUpdate (matchPartition keyR pyUpdate s p1) r).output.filter
      (fun o => o.2.1 == k)
      = s.output.filter (fun o => o.2.1 == k)
        ++ b.map (fun e => (e.node, k, pyUpdate e.tup r)) := by
    rw [hout2, List.filter_append, havoid2, hkr]
    congr 1
    refine List.filter_eq_self.2 (fun o hoo => ?_)
    simp only [List.mem_map] at hoo
    obtain ⟨e, _, rfl⟩ := hoo
    simp
  have hmain : (matchPartition keyR pyUpdate s (p1 ++ r :: p2)).output.filter
      (fun o => o.2.1 == k)
      = s.output.filter (fun o => o.2.1 == k)
        ++ b.map (fun e => (e.node, k, pyUpdate e.tup r)) := by
    rw [hsplit, hkeep, hfilter2]
  refine ⟨hmain, ?_, ?_⟩
  · rw [hmain]
    simp
  · intro e _ f
    exact dictLookup_pyUpdate e.tup r f

/-- Witness for C5: two pending tuples keyed 5 with distinct payloads,
matched by a partition whose single row is keyed 5. -/
theorem claim_C5_witness :
    (matchPartition (fun r : Dict => (dictLookup r "k").getD 0) pyUpdate
        (admitPhase (fun t : Dict => (dictLookup t "k").getD 0) (initStage Dict Dict 2)
          [[("k", 5), ("a", 1)], [("k", 5), ("a", 2)]]).1
        ([] ++ [("k", 5), ("p", 9)] :: [])).output.filter (fun o => o.2.1 == 5)
      = (admitPhase (fun t : Dict => (dictLookup t "k").getD 0) (initStage Dict Dict 2)
          [[("k", 5), ("a", 1)], [("k", 5), ("a", 2)]]).1.output.filter
          (fun o => o.2.1 == 5)
        ++ ([⟨[("k", 5), ("a", 1)], 0⟩, ⟨[("k", 5), ("a", 2)], 1⟩] : Bucket Dict).map
          (fun e => (e.node, 5, pyUpdate e.tup [("k", 5), ("p", 9)])) :=
  (claim_C5 (fun t : Dict => (dictLookup t "k").getD 0)
    (fun r : Dict => (dictLookup r "k").getD 0) 2 _
    (Reachable.step Reachable.init (StageStep.load _
      [[("k", 5), ("a", 1)], [("k", 5), ("a", 2)]]))
    5 ([⟨[("k", 5), ("a", 1)], 0⟩, ⟨[("k", 5), ("a", 2)], 1⟩] : Bucket Dict) [] []
    [("k", 5), ("p", 9)] (by decide) (by decide) (by decide)).1

/-- C6: a window entry, once removed (matched or flushed), is never matched
again: the node identities appearing in the output channel are pairwise
distinct (no tuple forwarded twice), no output identity is still pending in
the window, and the joined counter equals the number of outputs (nothing
counted twice). -/
theorem claim_C6 {τ ρ σ : Type} [DecidableEq τ] (keyS : τ → Key) (keyR : ρ → Key)
    (merge : τ → ρ → σ) (cap : Nat) (s : Stage τ σ)
    (h : Reachable keyS keyR merge cap s) :
    ((s.output.map (fun o => o.1)).Nodup) ∧
    (∀ o ∈ s.output, ∀ p ∈ s.queue, o.1 ≠ p.1) ∧
    s.total_joined = s.output.length :=
  ⟨(reachable_wf h).out_nodup, (reachable_wf h).out_window_disjoint,
    (reachable_wf h).joined_eq⟩

/-- Witness for C6 after an admission and a full match of the partition
`[5]`. -/
theorem claim_C6_witness :
    (((matchPartition (fun r : Int => r) (fun t r : Int => t + r)
        (admitPhase (fun t : Int => t) (initStage Int Int 2) [5, 5]).1 [5]).output.map
        (fun o => o.1)).Nodup) ∧
    (∀ o ∈ (matchPartition (fun r : Int => r) (fun t r : Int => t + r)
        (admitPhase (fun t : Int => t) (initStage Int Int 2) [5, 5]).1 [5]).output,
      ∀ p ∈ (matchPartition (fun r : Int => r) (fun t r : Int => t + r)
        (admitPhase (fun t : Int => t) (initStage Int Int 2) [5, 5]).1 [5]).queue,
      o.1 ≠ p.1) ∧
    (matchPartition (fun r : Int => r) (fun t r : Int => t + r)
        (admitPhase (fun t : Int => t) (initStage Int Int 2) [5, 5]).1 [5]).total_joined
      = (matchPartition (fun r : Int => r) (fun t r : Int => t + r)
        (admitPhase (fun t : Int => t) (initStage Int Int 2) [5, 5]).1 [5]).output.length :=
  claim_C6 (fun t : Int => t) (fun r : Int => r) (fun t r : Int => t + r) 2 _
    (Reachable.step (Reachable.step Reachable.init (StageStep.load _ [5, 5]))
      (StageStep.probe _ [5]))

/-- C7: tuples with the same key are matched, removed and forwarded in
stream-arrival order.  Node identities are handed out in admission order,
so: for each key, the identities of the outputs already forwarded are
strictly increasing (earlier-admitted matched and forwarded first), and
each pending bucket keeps its entries in strictly increasing identity
order (so the next drain also proceeds in arrival order). -/
theorem claim_C7 {τ ρ σ : Type} [DecidableEq τ] (keyS : τ → Key) (keyR : ρ → Key)
    (merge : τ → ρ → σ) (cap : Nat) (s : Stage τ σ)
    (h : Reachable keyS keyR merge cap s) :
    (∀ k : Key, List.Sorted (· < ·)
      ((s.output.filter (fun o => o.2.1 == k)).map (fun o => o.1))) ∧
    (∀ p ∈ s.hash_table, List.Sorted (· < ·) (p.2.map WEntry.node)) :=
  ⟨(reachable_wf h).out_key_sorted, (reachable_wf h).buckets_sorted⟩

/-- Witness for C7 on the same two-tuple, one-match scenario. -/
theorem claim_C7_witness :
    (∀ k : Key, List.Sorted (· < ·)
      (((matchPartition (fun r : Int => r) (fun t r : Int => t + r)
          (admitPhase (fun t : Int => t) (initStage Int Int 2) [5, 5]).1 [5]).output.filter
          (fun o => o.2.1 == k)).map (fun o => o.1))) ∧
    (∀ p ∈ (matchPartition (fun r : Int => r) (fun t r : Int => t + r)
        (admitPhase (fun t : Int => t) (initStage Int Int 2) [5, 5]).1 [5]).hash_table,
      List.Sorted (· < ·) (p.2.map WEntry.node)) :=
  claim_C7 (fun t : Int => t) (fun r : Int => r) (fun t r : Int => t + r) 2 _
    (Reachable.step (Reachable.step Reachable.init (StageStep.load _ [5, 5]))
      (StageStep.probe _ [5]))

/-- C8: one iteration of the consumer loop terminates (takes the `break` at
line 190) exactly when, at the top of the iteration, the upstream
completion signal is set, the input channel is empty and the window is
empty; termination then happens within that very iteration, and the loop
does not break while the window is non-empty, the upstream signal is unset
or the input channel still holds data. -/
theorem claim_C8 {τ ρ σ : Type} [DecidableEq τ] (keyS : τ → Key) (keyR : ρ → Key)
    (merge : τ → ρ → σ) (cap : Nat) (loader : Key → Except Unit (List ρ))
    (upstream : Bool) (s : Stage τ σ) (input : List τ)
    (hreach : Reachable keyS keyR merge cap s) (hcap : 1 ≤ cap) :
    ((upstream = true ∧ input = [] ∧ s.queue = []) →
      runIteration keyS keyR merge cap loader upstream s input
        = IterResult.terminated s []) ∧
    (∀ (s1 : Stage τ σ) (rest : List τ),
      runIteration keyS keyR merge cap loader upstream s input
        = IterResult.terminated s1 rest →
      upstream = true ∧ input = [] ∧ s.queue = []) := by
  constructor
  · rintro ⟨hup, hin, hq⟩
    subst hup
    subst hin
    have hphase := admitPhase_nil keyS s
    simp [runIteration, hphase, hq, dllIsEmpty]
  · intro s1 rest hterm
    by_cases hqe : dllIsEmpty (admitPhase keyS s input).1.queue = true
    · have hqnil : (admitPhase keyS s input).1.queue = [] := by
        rw [dllIsEmpty] at hqe
        exact List.length_eq_zero.1 (by simpa using hqe)
      obtain ⟨hsq, _, hrest⟩ := admitPhase_empty_queue keyS s input hqnil
      by_cases hcond : (upstream && (admitPhase keyS s input).2.isEmpty) = true
      · have hcond1 := hcond
        rw [Bool.and_eq_true] at hcond1
        have hup : upstream = true := hcond1.1
        have hie : (admitPhase keyS s input).2.isEmpty = true := hcond1.2
        have hinp : input = [] := by
          rw [hrest] at hie
          exact List.isEmpty_iff.1 hie
        exact ⟨hup, hinp, hsq⟩
      · exfalso
        have hcond0 : (upstream && (admitPhase keyS s input).2.isEmpty) = false := by
          cases hb : (upstream && (admitPhase keyS s input).2.isEmpty) with
          | false => rfl
          | true => exact absurd hb hcond
        simp only [runIteration, hqe, if_true, hcond0, Bool.false_eq_true, if_false]
          at hterm
        cases hterm
    · exfalso
      have hqf : dllIsEmpty (admitPhase keyS s input).1.queue = false := by
        cases hb : dllIsEmpty (admitPhase keyS s input).1.queue with
        | false => rfl
        | true => exact absurd hb hqe
      cases hpeek : dllPeekFront (admitPhase keyS s input).1.queue with
      | none =>
        simp only [runIteration, hqf, Bool.false_eq_true, if_false, hpeek] at hterm
        cases hterm
      | some k =>
        cases hload : loader k with
        | error e =>
          simp only [runIteration, hqf, Bool.false_eq_true, if_false, hpeek, hload]
            at hterm
          cases hterm
        | ok part =>
          by_cases hpe : part.isEmpty = true
          · simp only [runIteration, hqf, Bool.false_eq_true, if_false, hpeek, hload,
              hpe, if_true] at hterm
            cases hterm
          · have hpe0 : part.isEmpty = false := by
              cases hb : part.isEmpty with
              | false => rfl
              | true => exact absurd hb hpe
            simp only [runIteration, hqf, Bool.false_eq_true, if_false, hpeek, hload,
              hpe0] at hterm
            cases hterm

/-- Witness for C8: an initialised stage with the upstream signal set and
no input terminates at once. -/
theorem claim_C8_witness :
    ((true = true ∧ ([] : List Int) = [] ∧ (initStage Int Int 2).queue = []) →
      runIteration (fun t : Int => t) (fun r : Int => r) (fun t r : Int => t + r) 2
        (fun _ => Except.ok ([] : List Int)) true (initStage Int Int 2) []
        = IterResult.terminated (initStage Int Int 2) []) ∧
    (∀ (s1 : Stage Int Int) (rest : List Int),
      runIteration (fun t : Int => t) (fun r : Int => r) (fun t r : Int => t + r) 2
        (fun _ => Except.ok ([] : List Int)) true (initStage Int Int 2) []
        = IterResult.terminated s1 rest →
      true = true ∧ ([] : List Int) = [] ∧ (initStage Int Int 2).queue = []) :=
  claim_C8 (fun t : Int => t) (fun r : Int => r) (fun t r : Int => t + r) 2
    (fun _ => Except.ok []) true (initStage Int Int 2) [] Reachable.init (by decide)

/-- C9: when the final stage processes an enriched tuple for which any of
the four dimension lookups is absent, the tuple is dropped: the drop
counter grows by exactly one, the batch buffer and loaded counter are
unchanged, and `_write_fact_to_batch` returns normally (nothing fatal). -/
theorem claim_C9 (L : DimLookups) (batchSize : Nat) (st : SinkState) (e : EnrichedFact)
    (hmiss : L.customer e.customer_id = none ∨ L.product e.product_id = none ∨
      L.store (e.store_id.getD "UNKNOWN") = none ∨
      L.supplier (e.supplier_id.getD "UNKNOWN") = none) :
    writeFactToBatch L batchSize st e
      = { st with dropped_records := st.dropped_records + 1 } := by
  rcases hmiss with h | h | h | h <;> simp [writeFactToBatch, h, pyTruthy]

/-- Witness for C9: every lookup table empty, one concrete enriched
tuple. -/
theorem claim_C9_witness :
    writeFactToBatch
      ⟨fun _ => none, fun _ => none, fun _ => none, fun _ => none⟩ 1000
      ⟨[], 0, 0⟩ ⟨1, 2, "P1", none, none, 20240101, 0, 3, 10⟩
      = ⟨[], 0, 1⟩ :=
  claim_C9 ⟨fun _ => none, fun _ => none, fun _ => none, fun _ => none⟩ 1000
    ⟨[], 0, 0⟩ ⟨1, 2, "P1", none, none, 20240101, 0, 3, 10⟩ (Or.inl rfl)

/-- C10: every run of the stream producer sets the `producer_finished`
completion signal before the thread terminates — the `finally` block runs
both when the CSV is read and streamed successfully and when reading
raises, so a downstream stage polling the signal never waits forever on a
failed producer. -/
theorem claim_C10 (readResult : Except String (List Dict)) (st : ProducerState) :
    (producerRun readResult st).1.producer_finished = true := by
  cases readResult <;> rfl

end HybridJoinDW
